import Mathlib

/-!
Verification development for the patcog PGM image-processing program
(src/main.c).  The C code operates on `PNM` structs holding an ASCII-PGM
image: a `width × height` grid of `unsigned short` pixels bounded by a
declared maximum value, with fixed backing arrays of 4096 × 4096 entries.

Shallow-embedding conventions used throughout this file:

* `size_t` / `unsigned short` / `unsigned long long` quantities are
  modelled as `ℕ`.  Wherever the C data model itself bounds a quantity
  (pixel values fit in `unsigned short`, dimensions are rejected above
  4096 by `read_image`), the bound is carried as an explicit
  `wellFormed` hypothesis rather than by wrapping arithmetic; quantities
  with no such bound (the k-means `size_t` accumulator) wrap modulo 2^64
  explicitly.
* `double` arithmetic is modelled as exact rational arithmetic (`ℚ`).
  All concrete inputs used in counterexamples below evaluate exactly in
  binary64 as well (the values involved are small dyadic rationals or
  integers), so no conclusion drawn here depends on rounding.
* The fixed 4096 × 4096 backing array of a `PNM` is modelled as a total
  function `ℕ → ℕ → ℕ`; entries outside the logical
  `[0,height) × [0,width)` region play the role of the backing memory
  that the algorithms never meaningfully initialise.
* The C functions mutate their argument struct and return a success
  `bool`; they are embedded as pure functions returning the new grid
  (paired with the `bool` where the source can fail), and loops without
  a structural termination argument take explicit fuel, returning
  `Option`/`Except` results (`none` = fuel exhausted, never conflated
  with a source-level outcome).
-/

set_option maxRecDepth 10000

namespace Patcog

/-- A pixel coordinate: row `y`, column `x` (source `struct Point`,
src/main.c:552). -/
@[ext]
structure Point where
  y : ℕ
  x : ℕ
deriving DecidableEq, Repr

/-- The image model (source `struct PNM`, src/main.c:23).  The `magic`
format tag is dropped: it is forwarded unchanged by every algorithm
considered here.  `image i j` is the pixel at row `i`, column `j`. -/
structure PNM where
  width : ℕ
  height : ℕ
  max : ℕ
  image : ℕ → ℕ → ℕ

/-- Overwrite one pixel (the C assignment `img->image[y][x] = v`). -/
def setPx (img : PNM) (y x v : ℕ) : PNM :=
  ⟨img.width, img.height, img.max, fun i j => if i = y ∧ j = x then v else img.image i j⟩

/-- The data-model invariants guaranteed by the C types and by
`read_image` (src/main.c:32): dimensions at most 4096, pixel values of
type `unsigned short` bounded by `max`. -/
def wellFormed (img : PNM) : Prop :=
  img.width ≤ 4096 ∧ img.height ≤ 4096 ∧ img.max < 65536 ∧
    ∀ i ∈ Finset.range img.height, ∀ j ∈ Finset.range img.width, img.image i j ≤ img.max

instance (img : PNM) : Decidable (wellFormed img) := by
  unfold wellFormed; infer_instance

/-- The `DIFF(x, y)` macro (src/main.c:14): absolute difference on
unsigned values. -/
def diffN (a b : ℕ) : ℕ := if a > b then a - b else b - a

/-! ## Resampler (scale / rotate / affine), src/main.c:245-436 -/

/-- Integer part of a nonnegative coordinate, as extracted by
`modf(q, &tmp)` followed by the `(size_t)tmp` cast. -/
def baseN (q : ℚ) : ℕ := ⌊q⌋₊

/-- Fractional part of a nonnegative coordinate, as returned by `modf`. -/
def fracN (q : ℚ) : ℚ := q - (⌊q⌋₊ : ℚ)

/-- The bilinear-interpolation expression shared verbatim by `scale`
(src/main.c:286), `rotate` (src/main.c:343) and `affine_trans`
(src/main.c:418), including the final truncating `(uint)` cast. -/
def interp (img : PNM) (hb wb : ℕ) (hd wd : ℚ) : ℕ :=
  ⌊(img.image hb wb : ℚ) * (1 - hd) * (1 - wd)
    + (img.image (hb + 1) wb : ℚ) * hd * (1 - wd)
    + (img.image hb (wb + 1) : ℚ) * (1 - hd) * wd
    + (img.image (hb + 1) (wb + 1) : ℚ) * hd * wd⌋₊

/-- The inverse-mapped source coordinate used by `scale`: destination
index divided by the factor (src/main.c:275). -/
def scaleSrc (factor : ℚ) (i : ℕ) : ℚ := (i : ℚ) / factor

/-- One destination pixel of `scale` (the loop body, src/main.c:269-293):
if the interpolation base lies on the last source row or column, copy
the base pixel; otherwise interpolate bilinearly. -/
def scalePixel (img : PNM) (hf wf : ℚ) (i j : ℕ) : ℕ :=
  if baseN (scaleSrc hf i) = img.height - 1 ∨ baseN (scaleSrc wf j) = img.width - 1 then
    img.image (baseN (scaleSrc hf i)) (baseN (scaleSrc wf j))
  else
    interp img (baseN (scaleSrc hf i)) (baseN (scaleSrc wf j))
      (fracN (scaleSrc hf i)) (fracN (scaleSrc wf j))

/-- `scale` (src/main.c:245): new dimensions are the rounded products;
fails (grid untouched) if a new dimension exceeds 4096 or is zero.
C's `round` rounds half away from zero, which for the nonnegative
products equals Mathlib's `round` (half up). -/
def scale (img : PNM) (hf wf : ℚ) : Bool × PNM :=
  if 4096 < round (hf * (img.height : ℚ)) ∨ 4096 < round (wf * (img.width : ℚ)) then
    (false, img)
  else if round (hf * (img.height : ℚ)) = 0 ∨ round (wf * (img.width : ℚ)) = 0 then
    (false, img)
  else
    (true, ⟨(round (wf * (img.width : ℚ))).toNat, (round (hf * (img.height : ℚ))).toNat, img.max,
      fun i j =>
        if i < (round (hf * (img.height : ℚ))).toNat ∧ j < (round (wf * (img.width : ℚ))).toNat
        then scalePixel img hf wf i j else img.image i j⟩)

/-- Inverse-rotation x coordinate (src/main.c:323).  The embedding takes
`cost = cos θ` and `sint = sin θ` as parameters; for the θ = 0 claims
these are exactly 1 and 0, in binary64 as well as in `ℚ`. -/
def rotSrcX (x0 y0 cost sint : ℚ) (i j : ℕ) : ℚ :=
  cost * ((j : ℚ) - x0) + sint * ((i : ℚ) - y0) + x0

/-- Inverse-rotation y coordinate (src/main.c:324). -/
def rotSrcY (x0 y0 cost sint : ℚ) (i j : ℕ) : ℚ :=
  -sint * ((j : ℚ) - x0) + cost * ((i : ℚ) - y0) + y0

/-- The destination-pixel computation shared verbatim by `rotate`
(src/main.c:326-353) and `affine_trans` (src/main.c:401-428) for an
inverse-mapped source coordinate `(xo, yo)`: 0 when out of the source
bounds, 0 when the interpolation base lies on the last row or column,
bilinear interpolation otherwise. -/
def mapPixel (img : PNM) (xo yo : ℚ) : ℕ :=
  if 0 ≤ xo ∧ xo ≤ ((img.width - 1 : ℕ) : ℚ) ∧ 0 ≤ yo ∧ yo ≤ ((img.height - 1 : ℕ) : ℚ) then
    (if baseN yo = img.height - 1 ∨ baseN xo = img.width - 1 then 0
     else interp img (baseN yo) (baseN xo) (fracN yo) (fracN xo))
  else 0

/-- `rotate` (src/main.c:311): inverse mapping by the rotation of angle
`-θ` about `(x0, y0)`.  The C function always returns `true`, so only
the resulting grid is returned here. -/
def rotate (img : PNM) (cost sint x0 y0 : ℚ) : PNM :=
  ⟨img.width, img.height, img.max,
   fun i j => if i < img.height ∧ j < img.width
     then mapPixel img (rotSrcX x0 y0 cost sint i j) (rotSrcY x0 y0 cost sint i j)
     else img.image i j⟩

/-- The six affine coefficients (source `struct AffineArgs`,
src/main.c:370). -/
structure AffineArgs where
  a : ℚ
  b : ℚ
  c : ℚ
  d : ℚ
  e : ℚ
  f : ℚ
deriving DecidableEq, Repr

/-- The determinant `a·e − b·d` (src/main.c:382). -/
def affDet (args : AffineArgs) : ℚ := args.a * args.e - args.b * args.d

/-- Inverse-affine x coordinate (src/main.c:398). -/
def affSrcX (args : AffineArgs) (i j : ℕ) : ℚ :=
  (args.e * ((j : ℚ) - args.c) - args.b * ((i : ℚ) - args.f)) / affDet args

/-- Inverse-affine y coordinate (src/main.c:399). -/
def affSrcY (args : AffineArgs) (i j : ℕ) : ℚ :=
  (-args.d * ((j : ℚ) - args.c) + args.a * ((i : ℚ) - args.f)) / affDet args

/-- `affine_trans` (src/main.c:380): fails with the grid untouched when
the determinant is zero (the check precedes every write); otherwise
inverse-maps every destination pixel like `rotate`. -/
def affine_trans (img : PNM) (args : AffineArgs) : Bool × PNM :=
  if affDet args = 0 then (false, img)
  else (true, ⟨img.width, img.height, img.max,
    fun i j => if i < img.height ∧ j < img.width
      then mapPixel img (affSrcX args i j) (affSrcY args i j)
      else img.image i j⟩)

/-! ## Thresholder (binarize / find_threshold), src/main.c:439-521 -/

/-- `binarize` (src/main.c:439): each logical pixel becomes `max` when
strictly above the threshold, else 0. -/
def binarize (img : PNM) (th : ℕ) : PNM :=
  ⟨img.width, img.height, img.max,
   fun i j => if i < img.height ∧ j < img.width
     then (if th < img.image i j then img.max else 0)
     else img.image i j⟩

/-- `total_px = width * height` (src/main.c:450). -/
def totalPx (img : PNM) : ℕ := img.width * img.height

/-- The histogram `ni[v]`: number of logical pixels with value `v`
(src/main.c:458-463).  The same counting expression is also what
`get_region_props` accumulates as `area` for each label value. -/
def ni (img : PNM) (v : ℕ) : ℕ :=
  ∑ i in Finset.range img.height, ∑ j in Finset.range img.width,
    if img.image i j = v then 1 else 0

/-- The cumulative class fraction `omega[i]`, built by the recurrence of
src/main.c:470-473 (exact in `ℚ`; division by a zero `totalPx` yields 0
where C would yield NaN — in both semantics the scan below then leaves
its accumulator untouched and returns `max`). -/
def omega (img : PNM) : ℕ → ℚ
  | 0 => (ni img 0 : ℚ) / (totalPx img : ℚ)
  | i + 1 => omega img i + (ni img (i + 1) : ℚ) / (totalPx img : ℚ)

/-- The cumulative weighted mean `mu[i]` (`mu[0] = 0`), recurrence of
src/main.c:471-474. -/
def muAcc (img : PNM) : ℕ → ℚ
  | 0 => 0
  | i + 1 => muAcc img i + (((i + 1) * ni img (i + 1) : ℕ) : ℚ) / (totalPx img : ℚ)

/-- The between-class variance at candidate threshold `i`
(src/main.c:507-509), with `maxv` the grid's maximum value. -/
def btwVar (img : PNM) (maxv i : ℕ) : ℚ :=
  (muAcc img maxv * omega img i - muAcc img i) ^ 2 / (omega img i * (1 - omega img i))

/-- The candidate scan of `find_threshold` (src/main.c:495-515): `n` is
the number of remaining candidates (the loop counter is `i`), `mv` the
best variance so far, `mvv` the best candidate so far.  Candidates with
`omega = 0` are skipped, `omega = 1` terminates the scan, and only a
strictly larger variance replaces the incumbent. -/
def ftGo (img : PNM) (maxv : ℕ) : ℕ → ℕ → ℚ → ℕ → ℕ
  | 0, _, _, mvv => mvv
  | n + 1, i, mv, mvv =>
    if omega img i = 0 then ftGo img maxv n (i + 1) mv mvv
    else if omega img i = 1 then mvv
    else if mv < btwVar img maxv i then ftGo img maxv n (i + 1) (btwVar img maxv i) i
    else ftGo img maxv n (i + 1) mv mvv

/-- `find_threshold` (src/main.c:449): Otsu's method; the default result
when no candidate strictly improves on variance 0 is `max`. -/
def find_threshold (img : PNM) : ℕ :=
  ftGo img img.max (img.max + 1) 0 0 img.max

/-! ## RegionLabeler (label_region / label_all), src/main.c:558-622

The flood fill uses a bounded FIFO queue of fixed capacity `QUEUE_SIZE`
(a circular buffer over `front`/`rear` indices; the live contents
`queue[front..rear)` of length `rear − front` are modelled as a `List`,
enqueue appending at the back, dequeue taking the head, with the
capacity check `rear − front == QUEUE_SIZE` becoming a length check).
The capacity is kept as a parameter so the claims about other capacities
are statable; `label_all` instantiates it with `QUEUE_SIZE`.

The C `do … while (front != rear)` loop has no structural termination
measure (for `l_val == img->max` it can in fact run forever), so the
loop takes fuel and returns `none` on exhaustion; `(h+2)*(w+2)+2` fuel
is far beyond what any terminating C execution consumes, since every
iteration dequeues one point and each point of the reachable region is
enqueued at most once when `l_val ≠ img->max`. -/

/-- `QUEUE_SIZE` (src/main.c:12). -/
def QUEUE_SIZE : ℕ := 65536

/-- The eight neighbour candidates of a dequeued point, in the exact
source order and with the exact bounds guards of src/main.c:577-589.
The guards `p.x <= width-2` / `p.y <= height-2` are `size_t`
comparisons; for `width ≥ 2` they coincide with this `ℕ`-truncated
embedding.  (For a width-1 image the C comparison wraps to `2^64 - 2`
and lets the fill read the uninitialised backing array; every theorem
below that evaluates the fill does so on grids, or at seeds, where the
two readings agree.) -/
def nbrCandidates (h w : ℕ) (p : Point) : List Point :=
  (if 1 ≤ p.y ∧ 1 ≤ p.x then [⟨p.y - 1, p.x - 1⟩] else []) ++
  (if 1 ≤ p.y then [⟨p.y - 1, p.x⟩] else []) ++
  (if 1 ≤ p.y ∧ p.x ≤ w - 2 then [⟨p.y - 1, p.x + 1⟩] else []) ++
  (if 1 ≤ p.x then [⟨p.y, p.x - 1⟩] else []) ++
  (if p.x ≤ w - 2 then [⟨p.y, p.x + 1⟩] else []) ++
  (if p.y ≤ h - 2 ∧ 1 ≤ p.x then [⟨p.y + 1, p.x - 1⟩] else []) ++
  (if p.y ≤ h - 2 then [⟨p.y + 1, p.x⟩] else []) ++
  (if p.y ≤ h - 2 ∧ p.x ≤ w - 2 then [⟨p.y + 1, p.x + 1⟩] else [])

/-- The `ENQ` macro (src/main.c:562): fail when the queue is full,
otherwise append the point and immediately overwrite its pixel with the
label (marking happens at enqueue time). -/
def lrEnq (cap lval : ℕ) (img : PNM) (q : List Point) (p : Point) :
    Option (PNM × List Point) :=
  if q.length = cap then none
  else some (setPx img p.y p.x lval, q ++ [p])

/-- One dequeue step's neighbour pass (the body of the `do` loop,
src/main.c:575-589): scan the candidates in order, enqueueing each one
whose current pixel equals `maxv`.  On queue overflow the error carries
the grid as mutated so far (the C function `return false`s with the
image left in exactly that state). -/
def lrProcess (cap lval maxv : ℕ) :
    List Point → PNM → List Point → Except PNM (PNM × List Point)
  | [], img, q => Except.ok (img, q)
  | c :: cs, img, q =>
    if img.image c.y c.x = maxv then
      match lrEnq cap lval img q c with
      | none => Except.error img
      | some (img2, q2) => lrProcess cap lval maxv cs img2 q2
    else lrProcess cap lval maxv cs img q

/-- The `do … while (front != rear)` loop of `label_region`
(src/main.c:574-591), with fuel. -/
def lrLoop (cap lval maxv h w : ℕ) : ℕ → PNM → List Point → Option (Bool × PNM)
  | 0, _, _ => none
  | fuel + 1, img, q =>
    match q with
    | [] => some (true, img)
    | p :: rest =>
      match lrProcess cap lval maxv (nbrCandidates h w p) img rest with
      | Except.error img2 => some (false, img2)
      | Except.ok (img2, q2) => lrLoop cap lval maxv h w fuel img2 q2

/-- Fuel budget for one flood fill; see the section comment. -/
def lrFuel (img : PNM) : ℕ := (img.height + 2) * (img.width + 2) + 2

/-- `label_region` (src/main.c:558): seed the queue with `(y, x)`
(marking it), then run the flood-fill loop.  Returns
`some (false, img')` on queue overflow, `some (true, img')` on a fully
labeled component, `none` only on fuel exhaustion. -/
def label_region (cap : ℕ) (img : PNM) (y x lval : ℕ) : Option (Bool × PNM) :=
  match lrEnq cap lval img [] ⟨y, x⟩ with
  | none => some (false, img)
  | some (img2, q) => lrLoop cap lval img.max img.height img.width (lrFuel img) img2 q

/-- The row-major scan order of `label_all`'s double loop
(src/main.c:602-603). -/
def scanList (h w : ℕ) : List (ℕ × ℕ) :=
  (List.range h).flatMap fun i => (List.range w).map fun j => (i, j)

/-- The scan of `label_all` (src/main.c:600-622).  `lval` is the C
`l_val` counter (starting at 1).  On encountering a pixel equal to
`max`, flood-fill it with the current label and post-increment the
counter; a queue overflow stores `l_val − 2` and returns failure, the
counter reaching `max` stores `l_val − 1` and returns failure; a
completed scan stores `l_val − 1` and returns success. -/
def laGo (cap : ℕ) : List (ℕ × ℕ) → PNM → ℕ → Option (Bool × PNM × ℕ)
  | [], img, lval => some (true, img, lval - 1)
  | (i, j) :: rest, img, lval =>
    if img.image i j = img.max then
      match label_region cap img i j lval with
      | none => none
      | some (false, img2) => some (false, img2, lval + 1 - 2)
      | some (true, img2) =>
        if lval + 1 = img.max then some (false, img2, lval + 1 - 1)
        else laGo cap rest img2 (lval + 1)
    else laGo cap rest img lval

/-- `label_all` (src/main.c:600): result is
`(success?, labeled grid, stored label_max)`. -/
def label_all (img : PNM) : Option (Bool × PNM × ℕ) :=
  laGo QUEUE_SIZE (scanList img.height img.width) img 1

/-- The number of components whose flood fill ran to completion during
the `label_all` scan: the same traversal, counting the successful
`label_region` calls (and, like the scan, stopping at the failure that
interrupts it).  This is the reference count the stored `label_max` of
a failed `label_all` is compared against. -/
def ccGo (cap : ℕ) : List (ℕ × ℕ) → PNM → ℕ → ℕ → ℕ
  | [], _, _, acc => acc
  | (i, j) :: rest, img, lval, acc =>
    if img.image i j = img.max then
      match label_region cap img i j lval with
      | none => acc
      | some (false, _) => acc
      | some (true, img2) =>
        if lval + 1 = img.max then acc + 1
        else ccGo cap rest img2 (lval + 1) (acc + 1)
    else ccGo cap rest img lval acc

/-- Completed-component count for the `label_all` run on `img`. -/
def completedComponents (img : PNM) : ℕ :=
  ccGo QUEUE_SIZE (scanList img.height img.width) img 1 0

/-! ## RegionAnalyzer (get_region_props), src/main.c:636-668 -/

/-- Per-label accumulated properties (source `struct Props`,
src/main.c:624).  The stored moments are the raw accumulated sums (the
centroid-relative moments are only locals feeding the orientation
angle).  The `deg` field is omitted: it is produced by `atan2`/`fabs`
on `double`s, which this rational embedding does not model, and no
claim below concerns it. -/
structure Props where
  area : ℕ
  xcenter : ℕ
  ycenter : ℕ
  m20 : ℚ
  m02 : ℚ
  m11 : ℚ
deriving DecidableEq, Repr

/-- Accumulated column sum for label `v` (the `xcenter += j` pass of
src/main.c:644; pixels with values above `label_max` are skipped by the
`pval <= label_max` guard, so the accumulation for a label `v` sums
exactly over the pixels equal to `v`). -/
def xsumOf (img : PNM) (v : ℕ) : ℕ :=
  ∑ i in Finset.range img.height, ∑ j in Finset.range img.width,
    if img.image i j = v then j else 0

/-- Accumulated row sum for label `v` (src/main.c:645). -/
def ysumOf (img : PNM) (v : ℕ) : ℕ :=
  ∑ i in Finset.range img.height, ∑ j in Finset.range img.width,
    if img.image i j = v then i else 0

/-- Accumulated second moment `m20` for label `v` (src/main.c:646). -/
def m20Of (img : PNM) (v : ℕ) : ℚ :=
  ∑ i in Finset.range img.height, ∑ j in Finset.range img.width,
    if img.image i j = v then ((j * j : ℕ) : ℚ) else 0

/-- Accumulated second moment `m02` for label `v` (src/main.c:647). -/
def m02Of (img : PNM) (v : ℕ) : ℚ :=
  ∑ i in Finset.range img.height, ∑ j in Finset.range img.width,
    if img.image i j = v then ((i * i : ℕ) : ℚ) else 0

/-- Accumulated second moment `m11` for label `v` (src/main.c:648). -/
def m11Of (img : PNM) (v : ℕ) : ℚ :=
  ∑ i in Finset.range img.height, ∑ j in Finset.range img.width,
    if img.image i j = v then ((i : ℚ) * (j : ℚ)) else 0

/-- The finished `Props` entry for label `v`: the accumulated sums with
the coordinate sums divided by the area (`ret[i].xcenter /= area`,
src/main.c:656-657; `size_t` division). -/
def propsOf (img : PNM) (v : ℕ) : Props :=
  ⟨ni img v, xsumOf img v / ni img v, ysumOf img v / ni img v,
   m20Of img v, m02Of img v, m11Of img v⟩

/-- The per-label finishing pass of `get_region_props`
(src/main.c:653-665) over the listed label values.  The C code divides
by `area` unconditionally; a zero area is a division by zero (undefined
behaviour for the integer `size_t` divisions), modelled as `none`. -/
def grpGo (img : PNM) : List ℕ → Option (List Props)
  | [] => some []
  | v :: vs =>
    if ni img v = 0 then none
    else
      match grpGo img vs with
      | none => none
      | some ps => some (propsOf img v :: ps)

/-- `get_region_props` (src/main.c:636): properties for every label in
`[0, label_max]`, label 0 (background) included. -/
def get_region_props (img : PNM) (label_max : ℕ) : Option (List Props) :=
  grpGo img (List.range (label_max + 1))

/-! ## TemplateMatcher (find_nearest_region), src/main.c:708-738 -/

/-- `ULLONG_MAX`, the initial best distance (src/main.c:709). -/
def ULLMAX : ℕ := 18446744073709551615

/-- The per-pixel absolute differences of one placement `(i, j)`, in the
row-major order of the inner loops (src/main.c:714-716). -/
def sadList (tgt tpl : PNM) (i j : ℕ) : List ℕ :=
  (List.range tpl.height).flatMap fun k =>
    (List.range tpl.width).map fun l => diffN (tgt.image (i + k) (j + l)) (tpl.image k l)

/-- The total distance of one placement (what the inner loops sum when
no early exit fires). -/
def sadTotal (tgt tpl : PNM) (i j : ℕ) : ℕ := (sadList tgt tpl i j).sum

/-- The early-exit accumulation (src/main.c:713-724): add the
differences one by one and abandon (`goto LARGER`) the moment the
partial sum reaches the incumbent minimum `m`. -/
def sadLoop : List ℕ → ℕ → ℕ → Option ℕ
  | [], acc, _ => some acc
  | d :: rest, acc, m =>
    if m ≤ acc + d then none else sadLoop rest (acc + d) m

/-- The row-major placement order of the outer loops
(src/main.c:711-712). -/
def placements (tgt tpl : PNM) : List (ℕ × ℕ) :=
  (List.range (tgt.height - tpl.height + 1)).flatMap fun i =>
    (List.range (tgt.width - tpl.width + 1)).map fun j => (i, j)

/-- The placement scan of `find_nearest_region`: an abandoned placement
leaves the incumbent untouched; a completed one becomes the new
incumbent (src/main.c:726-731). -/
def fnrGo (tgt tpl : PNM) : List (ℕ × ℕ) → ℕ → Point → ℕ × Point
  | [], m, best => (m, best)
  | (i, j) :: rest, m, best =>
    match sadLoop (sadList tgt tpl i j) 0 m with
    | none => fnrGo tgt tpl rest m best
    | some d => fnrGo tgt tpl rest d ⟨i, j⟩

/-- `find_nearest_region` (src/main.c:708): minimal sum of absolute
differences and its placement.  The C `nearest` out-parameter is
uninitialised until the first completed placement; the embedding seats
it at `(0, 0)`. -/
def find_nearest_region (tgt tpl : PNM) : ℕ × Point :=
  fnrGo tgt tpl (placements tgt tpl) ULLMAX ⟨0, 0⟩

/-- Modelled from the claim's words, for the refinement comparison: the
minimum over all top-left placements of the total sum of absolute
per-pixel differences (the exhaustive computation without early
exit). -/
def bestDistSpec (tgt tpl : PNM) : ℕ :=
  ((placements tgt tpl).map fun p => sadTotal tgt tpl p.1 p.2).foldr min ULLMAX

/-- Modelled from the claim's words: the first placement in row-major
order attaining the exhaustive minimum. -/
def bestPlacementSpec (tgt tpl : PNM) : Point :=
  match (placements tgt tpl).find? (fun p => sadTotal tgt tpl p.1 p.2 = bestDistSpec tgt tpl) with
  | some p => ⟨p.1, p.2⟩
  | none => ⟨0, 0⟩

/-! ## Clusterer (cluster_by_kmeans), src/main.c:805-864 -/

/-- A feature datum (source `struct Feat`, src/main.c:800). -/
structure Feat where
  feat : ℕ
  idx_clst : ℕ
deriving DecidableEq, Repr

/-- A cluster accumulator (the local `struct Cluster`,
src/main.c:813). -/
structure Cluster where
  centre : ℕ
  n_membres : ℕ
  sum_feats : ℕ
deriving DecidableEq, Repr

/-- `SIZE_MAX`, the inner loop's initial minimal distance
(src/main.c:830). -/
def SIZE_MAX : ℕ := 18446744073709551615

/-- 2^64, the wrap modulus of the `size_t` feature-sum accumulator. -/
def U64 : ℕ := 18446744073709551616

/-- The inner cluster-selection loop (src/main.c:831-838): scan the
clusters with index `j`, keeping the first strictly closer centre; the
starting index is the feature's current assignment (kept when no
distance beats `SIZE_MAX`). -/
def chooseGo (fv : ℕ) : List Cluster → ℕ → ℕ → ℕ → ℕ
  | [], _, _, idx => idx
  | c :: cs, j, m, idx =>
    if diffN c.centre fv < m then chooseGo fv cs (j + 1) (diffN c.centre fv) j
    else chooseGo fv cs (j + 1) m idx

/-- Record a feature in its chosen cluster's accumulators
(src/main.c:841-842); the `size_t` feature sum wraps modulo 2^64. -/
def bumpCluster (clsts : List Cluster) (idx fv : ℕ) : List Cluster :=
  clsts.mapIdx fun j c =>
    if j = idx then ⟨c.centre, c.n_membres + 1, (c.sum_feats + fv) % U64⟩ else c

/-- The assignment pass (src/main.c:829-843): assign every feature in
order (the chosen index is `chooseGo …`, computed once in the C code)
and accumulate memberships as each assignment is made. -/
def kmAssign : List Feat → List Cluster → List Feat × List Cluster
  | [], clsts => ([], clsts)
  | f :: fs, clsts =>
    (⟨f.feat, chooseGo f.feat clsts 0 SIZE_MAX f.idx_clst⟩ ::
        (kmAssign fs (bumpCluster clsts (chooseGo f.feat clsts 0 SIZE_MAX f.idx_clst) f.feat)).1,
     (kmAssign fs (bumpCluster clsts (chooseGo f.feat clsts 0 SIZE_MAX f.idx_clst) f.feat)).2)

/-- The centre-update pass (src/main.c:846-862): each centre becomes
`sum_feats / n_membres` (`size_t` division), accumulators reset, and
the pass reports whether every centre was unchanged.  The C code
`assert`s `n_membres != 0`; an empty cluster is modelled as `none`. -/
def kmUpdate : List Cluster → Option (List Cluster × Bool)
  | [] => some ([], true)
  | c :: cs =>
    if c.n_membres = 0 then none
    else
      match kmUpdate cs with
      | none => none
      | some (cs2, fin) =>
        some (⟨c.sum_feats / c.n_membres, 0, 0⟩ :: cs2,
              fin && decide (c.sum_feats / c.n_membres = c.centre))

/-- One iteration of the `do … while (!finished)` loop: an assignment
pass followed by a centre update. -/
def kmOnePass (feats : List Feat) (clsts : List Cluster) :
    Option (List Feat × List Cluster × Bool) :=
  match kmAssign feats clsts with
  | (feats2, clsts2) =>
    match kmUpdate clsts2 with
    | none => none
    | some (clsts3, fin) => some (feats2, clsts3, fin)

/-- The `do … while (!finished)` loop (src/main.c:826-863), with fuel
(`none` = fuel exhausted or a cluster emptied). -/
def kmLoop : ℕ → List Feat → List Cluster → Option (List Feat × List Cluster)
  | 0, _, _ => none
  | fuel + 1, feats, clsts =>
    match kmOnePass feats clsts with
    | none => none
    | some (feats2, clsts2, fin) =>
      if fin then some (feats2, clsts2) else kmLoop fuel feats2 clsts2

/-- `cluster_by_kmeans` (src/main.c:805): assignments initialised to
cluster 0, the `k` centres seeded from the first `k` features
(`assert(n_feats >= n_clsts)` modelled as `none`), then the iteration
loop. -/
def cluster_by_kmeans (feats : List Feat) (k fuel : ℕ) :
    Option (List Feat × List Cluster) :=
  if feats.length < k then none
  else
    kmLoop fuel (feats.map fun f => ⟨f.feat, 0⟩)
      ((feats.take k).map fun f => ⟨f.feat, 0, 0⟩)

/-! ## Auxiliary predicates for the labeling invariants -/

/-- How a grid may evolve under a flood fill with label `lval` over
foreground value `maxv`: the shape fields are unchanged and every pixel
is either untouched or was a `maxv` pixel overwritten with `lval`. -/
def evolves (maxv lval : ℕ) (a b : PNM) : Prop :=
  b.width = a.width ∧ b.height = a.height ∧ b.max = a.max ∧
    ∀ p q : ℕ, b.image p q = a.image p q ∨ (a.image p q = maxv ∧ b.image p q = lval)

/-- The labeling invariant at counter value `lval`: every pixel of the
grid is background 0, unlabeled foreground `max`, or an already
assigned label in `[1, lval)`. -/
def labInv (img : PNM) (lval : ℕ) : Prop :=
  ∀ p q : ℕ, img.image p q = 0 ∨ img.image p q = img.max ∨
    (1 ≤ img.image p q ∧ img.image p q < lval)

/-! ## Concrete example inputs used by the per-claim witnesses and
counterexamples -/

/-- C1 witness target: 1×2 image `[0, 9]`. -/
def c1Tgt : PNM := ⟨2, 1, 9, fun i j => if i = 0 ∧ j = 1 then 9 else 0⟩

/-- C1 witness template: 1×1 image `[9]`. -/
def c1Tpl : PNM := ⟨1, 1, 9, fun _ _ => 9⟩

/-- C1 counterexample target: a 1×1 image. -/
def c1CexTgt : PNM := ⟨1, 1, 0, fun _ _ => 0⟩

/-- C1 counterexample template: a degenerate 0×0 image (accepted by
`read_image`, whose only size check is against the 4096 maxima). -/
def c1CexTpl : PNM := ⟨0, 0, 0, fun _ _ => 0⟩

/-- C2 witness image: 2×2. -/
def c2WImg : PNM := ⟨2, 2, 9, fun i j => if i = 0 ∧ j = 0 then 1 else if i = 0 ∧ j = 1 then 2
  else if i = 1 ∧ j = 0 then 3 else if i = 1 ∧ j = 1 then 4 else 0⟩

/-- C2 counterexample image: 1×1 with pixel value 5. -/
def c2CexImg : PNM := ⟨1, 1, 5, fun i j => if i = 0 ∧ j = 0 then 5 else 0⟩

/-- C3 counterexample image: 1×2 `[1, 2]` with `max = 2`. -/
def c3CexImg : PNM :=
  ⟨2, 1, 2, fun i j => if i = 0 ∧ j = 0 then 1 else if i = 0 ∧ j = 1 then 2 else 0⟩

/-- C4 witness image: 2×2 with `max = 2` and one foreground pixel, so
`label_all` fails by label-space exhaustion right after completing
component 1. -/
def c4WImg : PNM := ⟨2, 2, 2, fun i j => if i = 0 ∧ j = 0 then 2 else 0⟩

/-- C5 witness image: a 1×3 all-foreground row; its middle pixel has
two foreground neighbours. -/
def c5WImg : PNM := ⟨3, 1, 5, fun i j => if i = 0 ∧ j ≤ 2 then 5 else 0⟩

/-- C5 counterexample image: a 1×2 all-foreground row — a connected
component of exactly 2 pixels. -/
def c5CexImg : PNM := ⟨2, 1, 5, fun i j => if i = 0 ∧ (j = 0 ∨ j = 1) then 5 else 0⟩

/-- C6 witness image for the scale conjuncts: 2×2. -/
def c6ScaleImg : PNM := ⟨2, 2, 9, fun i j => if i = 0 ∧ j = 0 then 1 else if i = 0 ∧ j = 1 then 2
  else if i = 1 ∧ j = 0 then 3 else if i = 1 ∧ j = 1 then 4 else 0⟩

/-- C6 witness image for the rotate conjuncts: 1×1 with value 7. -/
def c6RotImg : PNM := ⟨1, 1, 9, fun _ _ => 7⟩

/-- C6 witness image for the rotate non-edge conjunct: 2×2. -/
def c6RotImg2 : PNM := ⟨2, 2, 9, fun i j => if i = 0 ∧ j = 0 then 5 else 0⟩

/-- C6 witness image for the affine conjuncts: 1×1 with value 8. -/
def c6AffImg : PNM := ⟨1, 1, 9, fun _ _ => 8⟩

/-- C6 witness image for the affine non-edge conjunct: 2×2. -/
def c6AffImg2 : PNM := ⟨2, 2, 9, fun i j => if i = 0 ∧ j = 1 then 6 else 0⟩

/-- The identity affine coefficients. -/
def c6AffId : AffineArgs := ⟨1, 0, 0, 0, 1, 0⟩

/-- C7 witness image. -/
def c7Img : PNM := ⟨1, 1, 9, fun _ _ => 4⟩

/-- C7 witness coefficients: the singular matrix of the spec,
`a=1, b=1, c=0, d=1, e=1, f=0`. -/
def c7Args : AffineArgs := ⟨1, 1, 0, 1, 1, 0⟩

/-- C8 counterexample features: values 0 and 1, whose exact mean 1/2 is
not an integer. -/
def c8CexFeats : List Feat := [⟨0, 0⟩, ⟨1, 0⟩]

/-- C8 witness features: values 2 and 4. -/
def c8WFeats : List Feat := [⟨2, 0⟩, ⟨4, 0⟩]

/-- C9 witness image: 2×2 binarized, `max = 3`, one foreground pixel. -/
def c9WImg : PNM := ⟨2, 2, 3, fun i j => if i = 0 ∧ j = 0 then 3 else 0⟩

/-- C9 counterexample image: 2×2 binarized with `max = 1` and one
foreground pixel; its component receives label 1 = `max`. -/
def c9CexImg : PNM := ⟨2, 2, 1, fun i j => if i = 0 ∧ j = 0 then 1 else 0⟩

/-- C10 witness image: 1×2 label map `[0, 1]` (both label 0 and label 1
have a pixel). -/
def c10WImg : PNM := ⟨2, 1, 1, fun i j => if i = 0 ∧ j = 1 then 1 else 0⟩

/-- C10 witness image for the no-background direction: 1×1 label map
`[1]` (label 0 has no pixel). -/
def c10CexImg : PNM := ⟨1, 1, 1, fun _ _ => 1⟩

/-! ## C7: a singular affine matrix fails with the grid untouched -/

/-- C7: for every grid and every affine coefficient set with determinant
`a·e − b·d = 0`, `affine_trans` fails, and — the determinant test being
the first statement of the function, before any write — the returned
grid is exactly the input grid (atomicity on error). -/
theorem C7_affine_singular_fails (img : PNM) (args : AffineArgs)
    (h : affDet args = 0) : affine_trans img args = (false, img) := by
  unfold affine_trans
  rw [if_pos h]

/-- C7 witness: the spec's singular matrix `a=1,b=1,c=0,d=1,e=1,f=0` on a
concrete grid. -/
theorem C7_affine_singular_fails_witness :
    affDet c7Args = 0 ∧ affine_trans c7Img c7Args = (false, c7Img) :=
  ⟨by norm_num [affDet, c7Args], C7_affine_singular_fails c7Img c7Args (by norm_num [affDet, c7Args])⟩

/-! ## C2: rotation by θ = 0 -/

/-- C2 (amended): rotation with `cos θ = 1`, `sin θ = 0` about any
center is the identity on every destination pixel whose interpolation
base is not on the last row or column of the source.  (On the last row
or column the source writes 0 instead — see the counterexample.) -/
theorem C2_rotate_zero_interior (img : PNM) (x0 y0 : ℚ) (i j : ℕ)
    (hi : i + 1 < img.height) (hj : j + 1 < img.width) :
    (rotate img 1 0 x0 y0).image i j = img.image i j := by
  have hiH : i < img.height := Nat.lt_of_succ_lt hi
  have hjW : j < img.width := Nat.lt_of_succ_lt hj
  have hx : rotSrcX x0 y0 1 0 i j = (j : ℚ) := by unfold rotSrcX; ring
  have hy : rotSrcY x0 y0 1 0 i j = (i : ℚ) := by unfold rotSrcY; ring
  show (if i < img.height ∧ j < img.width
      then mapPixel img (rotSrcX x0 y0 1 0 i j) (rotSrcY x0 y0 1 0 i j)
      else img.image i j) = img.image i j
  rw [if_pos ⟨hiH, hjW⟩, hx, hy]
  unfold mapPixel
  have hjb : (j : ℚ) ≤ ((img.width - 1 : ℕ) : ℚ) := by
    exact_mod_cast Nat.le_sub_one_of_lt hjW
  have hib : (i : ℚ) ≤ ((img.height - 1 : ℕ) : ℚ) := by
    exact_mod_cast Nat.le_sub_one_of_lt hiH
  rw [if_pos ⟨Nat.cast_nonneg j, hjb, Nat.cast_nonneg i, hib⟩]
  unfold baseN
  rw [Nat.floor_natCast, Nat.floor_natCast]
  have hne : ¬(i = img.height - 1 ∨ j = img.width - 1) := by
    push_neg
    omega
  rw [if_neg hne]
  unfold fracN interp
  rw [Nat.floor_natCast, Nat.floor_natCast]
  have hzi : (i : ℚ) - (i : ℚ) = 0 := by ring
  have hzj : (j : ℚ) - (j : ℚ) = 0 := by ring
  rw [hzi, hzj]
  norm_num

/-- C2 witness: the amended identity at a concrete interior pixel, with
a non-integer rotation center. -/
theorem C2_rotate_zero_interior_witness :
    0 + 1 < c2WImg.height ∧ (rotate c2WImg 1 0 (1/2) (1/3)).image 0 0 = c2WImg.image 0 0 :=
  ⟨by decide, C2_rotate_zero_interior c2WImg (1/2) (1/3) 0 0 (by decide) (by decide)⟩

/-- C2 counterexample: on the 1×1 image with pixel value 5, rotating by
θ = 0 about (0,0) inverse-maps destination (0,0) to source (0,0), which
lies within `[0, width−1] × [0, height−1]`, yet the output pixel is 0,
not the input value 5 — the base is on the last row/column, where
`rotate` writes 0.  So the claim "identity on all pixels not mapped out
of bounds" fails as stated. -/
theorem C2_rotate_zero_counterexample :
    rotSrcX 0 0 1 0 0 0 = 0 ∧ rotSrcY 0 0 1 0 0 0 = 0 ∧
    (0 : ℚ) ≤ ((c2CexImg.width - 1 : ℕ) : ℚ) ∧
    (0 : ℚ) ≤ ((c2CexImg.height - 1 : ℕ) : ℚ) ∧
    (rotate c2CexImg 1 0 0 0).image 0 0 = 0 ∧ c2CexImg.image 0 0 = 5 := by
  have hx : rotSrcX 0 0 1 0 0 0 = 0 := by unfold rotSrcX; norm_num
  have hy : rotSrcY 0 0 1 0 0 0 = 0 := by unfold rotSrcY; norm_num
  have hw : ((c2CexImg.width - 1 : ℕ) : ℚ) = 0 := by norm_num [c2CexImg]
  have hh : ((c2CexImg.height - 1 : ℕ) : ℚ) = 0 := by norm_num [c2CexImg]
  refine ⟨hx, hy, by rw [hw], by rw [hh], ?_, by decide⟩
  show (if 0 < c2CexImg.height ∧ 0 < c2CexImg.width
      then mapPixel c2CexImg (rotSrcX 0 0 1 0 0 0) (rotSrcY 0 0 1 0 0 0)
      else c2CexImg.image 0 0) = 0
  rw [if_pos ⟨by decide, by decide⟩, hx, hy]
  unfold mapPixel
  rw [if_pos ⟨le_refl 0, by rw [hw], le_refl 0, by rw [hh]⟩]
  rw [if_pos (Or.inl (by unfold baseN; rw [Nat.floor_zero]; decide))]

/-! ## C6: the copy-versus-zero edge-policy asymmetry -/

/-- On success, the grid produced by `scale` is the interpolated one. -/
theorem scale_success_grid (img : PNM) (hf wf : ℚ)
    (h : (scale img hf wf).1 = true) :
    (scale img hf wf).2 =
      ⟨(round (wf * (img.width : ℚ))).toNat, (round (hf * (img.height : ℚ))).toNat, img.max,
        fun i j =>
          if i < (round (hf * (img.height : ℚ))).toNat ∧
              j < (round (wf * (img.width : ℚ))).toNat
          then scalePixel img hf wf i j else img.image i j⟩ := by
  unfold scale at h ⊢
  by_cases h1 : 4096 < round (hf * (img.height : ℚ)) ∨ 4096 < round (wf * (img.width : ℚ))
  · rw [if_pos h1] at h; cases h
  · rw [if_neg h1] at h ⊢
    by_cases h2 : round (hf * (img.height : ℚ)) = 0 ∨ round (wf * (img.width : ℚ)) = 0
    · rw [if_pos h2] at h; cases h
    · rw [if_neg h2]

/-- On success, the grid produced by `affine_trans` is the inverse-mapped
one. -/
theorem affine_success_grid (img : PNM) (args : AffineArgs)
    (h : (affine_trans img args).1 = true) :
    (affine_trans img args).2 =
      ⟨img.width, img.height, img.max,
        fun i j => if i < img.height ∧ j < img.width
          then mapPixel img (affSrcX args i j) (affSrcY args i j)
          else img.image i j⟩ := by
  unfold affine_trans at h ⊢
  by_cases h0 : affDet args = 0
  · rw [if_pos h0] at h; cases h
  · rw [if_neg h0]

/-- C6: for every grid and destination pixel, when the inverse-mapped
base coordinate lies on the last source row or column, `scale` writes a
direct copy of the base source pixel while `rotate` and `affine_trans`
write 0 in the same condition (conjuncts 1, 3, 5); away from that edge
condition (and in bounds), all three write the identical bilinear
interpolation expression `interp` of their respective inverse-mapped
coordinates (conjuncts 2, 4, 6). -/
theorem C6_copy_vs_zero_asymmetry :
    (∀ (img : PNM) (hf wf : ℚ) (i j : ℕ),
      (scale img hf wf).1 = true →
      i < (scale img hf wf).2.height → j < (scale img hf wf).2.width →
      (baseN (scaleSrc hf i) = img.height - 1 ∨ baseN (scaleSrc wf j) = img.width - 1) →
      (scale img hf wf).2.image i j = img.image (baseN (scaleSrc hf i)) (baseN (scaleSrc wf j)))
  ∧ (∀ (img : PNM) (hf wf : ℚ) (i j : ℕ),
      (scale img hf wf).1 = true →
      i < (scale img hf wf).2.height → j < (scale img hf wf).2.width →
      ¬(baseN (scaleSrc hf i) = img.height - 1 ∨ baseN (scaleSrc wf j) = img.width - 1) →
      (scale img hf wf).2.image i j =
        interp img (baseN (scaleSrc hf i)) (baseN (scaleSrc wf j))
          (fracN (scaleSrc hf i)) (fracN (scaleSrc wf j)))
  ∧ (∀ (img : PNM) (cost sint x0 y0 : ℚ) (i j : ℕ),
      i < img.height → j < img.width →
      (0 ≤ rotSrcX x0 y0 cost sint i j ∧
        rotSrcX x0 y0 cost sint i j ≤ ((img.width - 1 : ℕ) : ℚ) ∧
        0 ≤ rotSrcY x0 y0 cost sint i j ∧
        rotSrcY x0 y0 cost sint i j ≤ ((img.height - 1 : ℕ) : ℚ)) →
      (baseN (rotSrcY x0 y0 cost sint i j) = img.height - 1 ∨
        baseN (rotSrcX x0 y0 cost sint i j) = img.width - 1) →
      (rotate img cost sint x0 y0).image i j = 0)
  ∧ (∀ (img : PNM) (cost sint x0 y0 : ℚ) (i j : ℕ),
      i < img.height → j < img.width →
      (0 ≤ rotSrcX x0 y0 cost sint i j ∧
        rotSrcX x0 y0 cost sint i j ≤ ((img.width - 1 : ℕ) : ℚ) ∧
        0 ≤ rotSrcY x0 y0 cost sint i j ∧
        rotSrcY x0 y0 cost sint i j ≤ ((img.height - 1 : ℕ) : ℚ)) →
      ¬(baseN (rotSrcY x0 y0 cost sint i j) = img.height - 1 ∨
          baseN (rotSrcX x0 y0 cost sint i j) = img.width - 1) →
      (rotate img cost sint x0 y0).image i j =
        interp img (baseN (rotSrcY x0 y0 cost sint i j)) (baseN (rotSrcX x0 y0 cost sint i j))
          (fracN (rotSrcY x0 y0 cost sint i j)) (fracN (rotSrcX x0 y0 cost sint i j)))
  ∧ (∀ (img : PNM) (args : AffineArgs) (i j : ℕ),
      (affine_trans img args).1 = true →
      i < img.height → j < img.width →
      (0 ≤ affSrcX args i j ∧ affSrcX args i j ≤ ((img.width - 1 : ℕ) : ℚ) ∧
        0 ≤ affSrcY args i j ∧ affSrcY args i j ≤ ((img.height - 1 : ℕ) : ℚ)) →
      (baseN (affSrcY args i j) = img.height - 1 ∨
        baseN (affSrcX args i j) = img.width - 1) →
      (affine_trans img args).2.image i j = 0)
  ∧ (∀ (img : PNM) (args : AffineArgs) (i j : ℕ),
      (affine_trans img args).1 = true →
      i < img.height → j < img.width →
      (0 ≤ affSrcX args i j ∧ affSrcX args i j ≤ ((img.width - 1 : ℕ) : ℚ) ∧
        0 ≤ affSrcY args i j ∧ affSrcY args i j ≤ ((img.height - 1 : ℕ) : ℚ)) →
      ¬(baseN (affSrcY args i j) = img.height - 1 ∨
          baseN (affSrcX args i j) = img.width - 1) →
      (affine_trans img args).2.image i j =
        interp img (baseN (affSrcY args i j)) (baseN (affSrcX args i j))
          (fracN (affSrcY args i j)) (fracN (affSrcX args i j))) := by
  refine ⟨?_, ?_, ?_, ?_, ?_, ?_⟩
  · intro img hf wf i j hs hi hj hedge
    rw [scale_success_grid img hf wf hs] at hi hj ⊢
    show (if _ ∧ _ then scalePixel img hf wf i j else img.image i j) = _
    rw [if_pos ⟨hi, hj⟩]
    unfold scalePixel
    rw [if_pos hedge]
  · intro img hf wf i j hs hi hj hedge
    rw [scale_success_grid img hf wf hs] at hi hj ⊢
    show (if _ ∧ _ then scalePixel img hf wf i j else img.image i j) = _
    rw [if_pos ⟨hi, hj⟩]
    unfold scalePixel
    rw [if_neg hedge]
  · intro img cost sint x0 y0 i j hi hj hbnd hedge
    show (if i < img.height ∧ j < img.width
        then mapPixel img (rotSrcX x0 y0 cost sint i j) (rotSrcY x0 y0 cost sint i j)
        else img.image i j) = 0
    rw [if_pos ⟨hi, hj⟩]
    unfold mapPixel
    rw [if_pos ⟨hbnd.1, hbnd.2.1, hbnd.2.2.1, hbnd.2.2.2⟩, if_pos hedge]
  · intro img cost sint x0 y0 i j hi hj hbnd hedge
    show (if i < img.height ∧ j < img.width
        then mapPixel img (rotSrcX x0 y0 cost sint i j) (rotSrcY x0 y0 cost sint i j)
        else img.image i j) = _
    rw [if_pos ⟨hi, hj⟩]
    unfold mapPixel
    rw [if_pos ⟨hbnd.1, hbnd.2.1, hbnd.2.2.1, hbnd.2.2.2⟩, if_neg hedge]
  · intro img args i j hs hi hj hbnd hedge
    rw [affine_success_grid img args hs]
    show (if i < img.height ∧ j < img.width
        then mapPixel img (affSrcX args i j) (affSrcY args i j)
        else img.image i j) = 0
    rw [if_pos ⟨hi, hj⟩]
    unfold mapPixel
    rw [if_pos ⟨hbnd.1, hbnd.2.1, hbnd.2.2.1, hbnd.2.2.2⟩, if_pos hedge]
  · intro img args i j hs hi hj hbnd hedge
    rw [affine_success_grid img args hs]
    show (if i < img.height ∧ j < img.width
        then mapPixel img (affSrcX args i j) (affSrcY args i j)
        else img.image i j) = _
    rw [if_pos ⟨hi, hj⟩]
    unfold mapPixel
    rw [if_pos ⟨hbnd.1, hbnd.2.1, hbnd.2.2.1, hbnd.2.2.2⟩, if_neg hedge]

/-- C6 witness: every conjunct of the asymmetry theorem instantiated on
a concrete grid and destination pixel (scale with factors 1, rotate with
θ = 0 about (0,0), affine with the identity coefficients). -/
theorem C6_copy_vs_zero_asymmetry_witness :
    (scale c6ScaleImg 1 1).2.image 1 0
        = c6ScaleImg.image (baseN (scaleSrc 1 1)) (baseN (scaleSrc 1 0)) ∧
    (scale c6ScaleImg 1 1).2.image 0 0
        = interp c6ScaleImg (baseN (scaleSrc 1 0)) (baseN (scaleSrc 1 0))
            (fracN (scaleSrc 1 0)) (fracN (scaleSrc 1 0)) ∧
    (rotate c6RotImg 1 0 0 0).image 0 0 = 0 ∧
    (rotate c6RotImg2 1 0 0 0).image 0 0
        = interp c6RotImg2 (baseN (rotSrcY 0 0 1 0 0 0)) (baseN (rotSrcX 0 0 1 0 0 0))
            (fracN (rotSrcY 0 0 1 0 0 0)) (fracN (rotSrcX 0 0 1 0 0 0)) ∧
    (affine_trans c6AffImg c6AffId).2.image 0 0 = 0 ∧
    (affine_trans c6AffImg2 c6AffId).2.image 0 0
        = interp c6AffImg2 (baseN (affSrcY c6AffId 0 0)) (baseN (affSrcX c6AffId 0 0))
            (fracN (affSrcY c6AffId 0 0)) (fracN (affSrcX c6AffId 0 0)) := by
  obtain ⟨t1, t2, t3, t4, t5, t6⟩ := C6_copy_vs_zero_asymmetry
  refine ⟨?_, ?_, ?_, ?_, ?_, ?_⟩
  · exact t1 c6ScaleImg 1 1 1 0 (by norm_num [scale, c6ScaleImg])
      (by norm_num [scale, c6ScaleImg]) (by norm_num [scale, c6ScaleImg])
      (Or.inl (by norm_num [baseN, scaleSrc, c6ScaleImg]))
  · exact t2 c6ScaleImg 1 1 0 0 (by norm_num [scale, c6ScaleImg])
      (by norm_num [scale, c6ScaleImg]) (by norm_num [scale, c6ScaleImg])
      (by norm_num [baseN, scaleSrc, c6ScaleImg])
  · exact t3 c6RotImg 1 0 0 0 0 0 (by norm_num [c6RotImg]) (by norm_num [c6RotImg])
      ⟨by norm_num [rotSrcX], by norm_num [rotSrcX, c6RotImg],
       by norm_num [rotSrcY], by norm_num [rotSrcY, c6RotImg]⟩
      (Or.inl (by norm_num [baseN, rotSrcY, c6RotImg]))
  · exact t4 c6RotImg2 1 0 0 0 0 0 (by norm_num [c6RotImg2]) (by norm_num [c6RotImg2])
      ⟨by norm_num [rotSrcX], by norm_num [rotSrcX, c6RotImg2],
       by norm_num [rotSrcY], by norm_num [rotSrcY, c6RotImg2]⟩
      (by norm_num [baseN, rotSrcY, rotSrcX, c6RotImg2])
  · exact t5 c6AffImg c6AffId 0 0 (by norm_num [affine_trans, affDet, c6AffId])
      (by norm_num [c6AffImg]) (by norm_num [c6AffImg])
      ⟨by norm_num [affSrcX, affDet, c6AffId], by norm_num [affSrcX, affDet, c6AffId, c6AffImg],
       by norm_num [affSrcY, affDet, c6AffId], by norm_num [affSrcY, affDet, c6AffId, c6AffImg]⟩
      (Or.inl (by norm_num [baseN, affSrcY, affDet, c6AffId, c6AffImg]))
  · exact t6 c6AffImg2 c6AffId 0 0 (by norm_num [affine_trans, affDet, c6AffId])
      (by norm_num [c6AffImg2]) (by norm_num [c6AffImg2])
      ⟨by norm_num [affSrcX, affDet, c6AffId], by norm_num [affSrcX, affDet, c6AffId, c6AffImg2],
       by norm_num [affSrcY, affDet, c6AffId], by norm_num [affSrcY, affDet, c6AffId, c6AffImg2]⟩
      (by norm_num [baseN, affSrcY, affSrcX, affDet, c6AffId, c6AffImg2])

/-! ## C10: get_region_props divides by every label's area -/

/-- The finishing pass succeeds exactly when every listed label has a
nonzero area. -/
theorem grpGo_isSome (img : PNM) :
    ∀ l : List ℕ, (grpGo img l).isSome = true ↔ ∀ v ∈ l, 0 < ni img v := by
  intro l
  induction l with
  | nil => simp [grpGo]
  | cons v vs ih =>
    rw [grpGo]
    by_cases hv : ni img v = 0
    · rw [if_pos hv]
      simp only [Option.isSome_none, Bool.false_eq_true, false_iff]
      intro h
      exact absurd (h v (List.mem_cons_self v vs)) (by omega)
    · rw [if_neg hv]
      cases hgo : grpGo img vs with
      | none =>
        simp only [Option.isSome_none, Bool.false_eq_true, false_iff]
        intro h
        have hs : (grpGo img vs).isSome = true :=
          ih.mpr fun w hw => h w (List.mem_cons_of_mem v hw)
        rw [hgo] at hs
        cases hs
      | some ps =>
        simp only [Option.isSome_some, true_iff]
        intro w hw
        rcases List.mem_cons.mp hw with rfl | hw2
        · omega
        · exact (ih.mp (by rw [hgo]; rfl)) w hw2

/-- C10: `get_region_props` divides each label's coordinate sums by that
label's area for every label in `[0, label_max]`, background label 0
included.  The result is well-defined (the `size_t` divisions avoid
division by zero) exactly when every such label has at least one pixel;
in particular a label map with no background pixels makes the centroid
computation for label 0 divide by zero (modelled as `none`). -/
theorem C10_props_division_precondition :
    (∀ (img : PNM) (lm : ℕ),
      (get_region_props img lm).isSome = true ↔ ∀ v ∈ List.range (lm + 1), 0 < ni img v)
  ∧ (∀ (img : PNM) (lm : ℕ),
      (∀ i ∈ Finset.range img.height, ∀ j ∈ Finset.range img.width, img.image i j ≠ 0) →
      get_region_props img lm = none) := by
  constructor
  · intro img lm
    exact grpGo_isSome img (List.range (lm + 1))
  · intro img lm h
    have h0 : ni img 0 = 0 := by
      unfold ni
      apply Finset.sum_eq_zero
      intro i hi
      apply Finset.sum_eq_zero
      intro j hj
      rw [if_neg (h i hi j hj)]
    unfold get_region_props
    rw [List.range_succ_eq_map, grpGo, if_pos h0]

/-- C10 witness: a label map with labels 0 and 1 both present succeeds;
the all-foreground 1×1 label map (no background pixel) hits the
division by zero for label 0. -/
theorem C10_props_division_precondition_witness :
    (get_region_props c10WImg 1).isSome = true ∧ get_region_props c10CexImg 0 = none :=
  ⟨(C10_props_division_precondition.1 c10WImg 1).mpr (by decide),
   C10_props_division_precondition.2 c10CexImg 0 (by decide)⟩

/-! ## C8: k-means with k = 1 -/

/-- With a single cluster, the selection loop picks index 0 when the
distance beats `SIZE_MAX`, and otherwise keeps the feature's current
assignment. -/
theorem chooseGo_single (fv j m idx : ℕ) (c : Cluster) :
    chooseGo fv [c] j m idx = if diffN c.centre fv < m then j else idx := by
  rw [chooseGo]
  by_cases h : diffN c.centre fv < m
  · rw [if_pos h, if_pos h, chooseGo]
  · rw [if_neg h, if_neg h, chooseGo]

/-- Bumping the only cluster. -/
theorem bumpCluster_single (c : Cluster) (fv : ℕ) :
    bumpCluster [c] 0 fv = [⟨c.centre, c.n_membres + 1, (c.sum_feats + fv) % U64⟩] := by
  simp [bumpCluster]

/-- The assignment pass with a single cluster: every feature lands in
cluster 0 and the accumulators take the whole list. -/
theorem kmAssign_single :
    ∀ (fs : List Feat) (c : Cluster), (∀ f ∈ fs, f.idx_clst = 0) → c.sum_feats < U64 →
      kmAssign fs [c] =
        (fs.map fun f => ⟨f.feat, 0⟩,
         [⟨c.centre, c.n_membres + fs.length, (c.sum_feats + (fs.map Feat.feat).sum) % U64⟩]) := by
  intro fs
  induction fs with
  | nil =>
    intro c _ hs
    simp [kmAssign, Nat.mod_eq_of_lt hs]
  | cons f fs ih =>
    intro c hidx hs
    have hidx0 : f.idx_clst = 0 := hidx f (List.mem_cons_self f fs)
    have hsel : chooseGo f.feat [c] 0 SIZE_MAX f.idx_clst = 0 := by
      rw [chooseGo_single]
      by_cases h : diffN c.centre f.feat < SIZE_MAX
      · rw [if_pos h]
      · rw [if_neg h, hidx0]
    rw [kmAssign, hsel, bumpCluster_single]
    rw [ih _ (fun g hg => hidx g (List.mem_cons_of_mem f hg))
        (Nat.mod_lt _ (by norm_num [U64]))]
    refine Prod.ext rfl ?_
    simp only [List.map_cons, List.sum_cons]
    have hlen : c.n_membres + 1 + fs.length = c.n_membres + (fs.length + 1) := by omega
    have hmod : ((c.sum_feats + f.feat) % U64 + (fs.map Feat.feat).sum) % U64
        = (c.sum_feats + (f.feat + (fs.map Feat.feat).sum)) % U64 := by
      rw [Nat.mod_add_mod, Nat.add_assoc]
    rw [List.length_cons, hlen, hmod]

/-- The centre update with a single nonempty cluster. -/
theorem kmUpdate_single (c : Cluster) (h : c.n_membres ≠ 0) :
    kmUpdate [c] = some ([⟨c.sum_feats / c.n_membres, 0, 0⟩],
      decide (c.sum_feats / c.n_membres = c.centre)) := by
  rw [kmUpdate, if_neg h, kmUpdate]
  simp

/-- One k-means pass with a single cluster. -/
theorem kmOnePass_single (fs : List Feat) (c : Cluster)
    (hidx : ∀ f ∈ fs, f.idx_clst = 0) (hs : c.sum_feats < U64) (hne : fs ≠ []) :
    kmOnePass fs [c] =
      some (fs.map fun f => ⟨f.feat, 0⟩,
        [⟨(c.sum_feats + (fs.map Feat.feat).sum) % U64 / (c.n_membres + fs.length), 0, 0⟩],
        decide ((c.sum_feats + (fs.map Feat.feat).sum) % U64 / (c.n_membres + fs.length)
          = c.centre)) := by
  unfold kmOnePass
  rw [kmAssign_single fs c hidx hs]
  have hn : c.n_membres + fs.length ≠ 0 := by
    have := List.length_pos.mpr hne
    omega
  show (match kmUpdate [⟨c.centre, c.n_membres + fs.length,
        (c.sum_feats + (fs.map Feat.feat).sum) % U64⟩] with
      | none => none
      | some (clsts3, fin) =>
        some (fs.map fun (f : Feat) => (⟨f.feat, 0⟩ : Feat), clsts3, fin)) = _
  rw [kmUpdate_single _ hn]

/-- k = 1 convergence: the centroid that the first pass computes,
`⌊Σ/n⌋`, is already the final one; at most one further pass runs, only
to observe that nothing changed. -/
theorem kmeans_k1 (feats : List Feat) (fuel : ℕ) (hne : feats ≠ []) (hfuel : 2 ≤ fuel)
    (hsum : (feats.map Feat.feat).sum < U64) :
    cluster_by_kmeans feats 1 fuel =
      some (feats.map fun f => ⟨f.feat, 0⟩,
        [⟨(feats.map Feat.feat).sum / feats.length, 0, 0⟩]) := by
  obtain ⟨f0, fs, rfl⟩ : ∃ f0 fs, feats = f0 :: fs := by
    cases feats with
    | nil => exact absurd rfl hne
    | cons f0 fs => exact ⟨f0, fs, rfl⟩
  obtain ⟨n, rfl⟩ : ∃ n, fuel = n + 2 := ⟨fuel - 2, by omega⟩
  unfold cluster_by_kmeans
  rw [if_neg (by simp)]
  have hidx : ∀ g ∈ (f0 :: fs).map fun f => (⟨f.feat, 0⟩ : Feat), g.idx_clst = 0 := by
    intro g hg
    obtain ⟨f, _, rfl⟩ := List.mem_map.mp hg
    rfl
  have hmapmap : ((f0 :: fs).map fun f => (⟨f.feat, 0⟩ : Feat)).map
      (fun f => (⟨f.feat, 0⟩ : Feat)) = (f0 :: fs).map fun f => (⟨f.feat, 0⟩ : Feat) := by
    rw [List.map_map]
    rfl
  have hfeatmap : (((f0 :: fs).map fun f => (⟨f.feat, 0⟩ : Feat)).map Feat.feat)
      = (f0 :: fs).map Feat.feat := by
    rw [List.map_map]
    rfl
  have hlenmap : ((f0 :: fs).map fun f => (⟨f.feat, 0⟩ : Feat)).length = (f0 :: fs).length :=
    List.length_map _ _
  have hmapne : (f0 :: fs).map (fun f => (⟨f.feat, 0⟩ : Feat)) ≠ [] := by simp
  have htake : (((f0 :: fs).take 1).map fun f => (⟨f.feat, 0, 0⟩ : Cluster))
      = [⟨f0.feat, 0, 0⟩] := by simp
  rw [htake]
  have hpass1 := kmOnePass_single ((f0 :: fs).map fun f => ⟨f.feat, 0⟩) ⟨f0.feat, 0, 0⟩
    hidx (by norm_num [U64]) hmapne
  rw [hfeatmap, hlenmap] at hpass1
  show kmLoop (n + 1 + 1) ((f0 :: fs).map fun f => ⟨f.feat, 0⟩) [⟨f0.feat, 0, 0⟩] = _
  rw [kmLoop, hpass1]
  simp only [Nat.zero_add, Nat.mod_eq_of_lt hsum]
  by_cases hfix : ((f0 :: fs).map Feat.feat).sum / (f0 :: fs).length = f0.feat
  · rw [decide_eq_true hfix]
    show some _ = _
    rw [hmapmap]
  · rw [decide_eq_false hfix]
    show kmLoop (n + 1) (((f0 :: fs).map fun f => (⟨f.feat, 0⟩ : Feat)).map
        fun f => (⟨f.feat, 0⟩ : Feat))
      [⟨((f0 :: fs).map Feat.feat).sum / (f0 :: fs).length, 0, 0⟩] = _
    rw [hmapmap]
    have hpass2 := kmOnePass_single ((f0 :: fs).map fun f => ⟨f.feat, 0⟩)
      ⟨((f0 :: fs).map Feat.feat).sum / (f0 :: fs).length, 0, 0⟩
      hidx (by norm_num [U64]) hmapne
    rw [hfeatmap, hlenmap] at hpass2
    rw [kmLoop, hpass2]
    simp only [Nat.zero_add, Nat.mod_eq_of_lt hsum]
    rw [if_pos (show decide True = true from rfl), hmapmap]

/-- C8 (amended): for every non-empty feature list, k-means with k = 1
terminates with the single centroid equal to the floored integer mean
`⌊Σ/n⌋` of all feature values and every feature assigned to cluster 0;
that centroid is already produced by the first assignment-update pass
(any later pass only re-derives it, so fuel 2 — one working pass plus
one convergence-detecting pass — always suffices); and the result is the
same for any permutation of the input list.  (The hypothesis `Σ < 2^64`
discharges the `size_t` wrap of the C accumulator.) -/
theorem C8_kmeans_k1_floored_mean (feats : List Feat) (fuel : ℕ)
    (hne : feats ≠ []) (hfuel : 2 ≤ fuel) (hsum : (feats.map Feat.feat).sum < U64) :
    cluster_by_kmeans feats 1 fuel =
      some (feats.map fun f => ⟨f.feat, 0⟩,
        [⟨(feats.map Feat.feat).sum / feats.length, 0, 0⟩])
  ∧ (kmOnePass (feats.map fun f => ⟨f.feat, 0⟩)
        ((feats.take 1).map fun f => ⟨f.feat, 0, 0⟩)).map (fun r => r.2.1.map Cluster.centre)
      = some [(feats.map Feat.feat).sum / feats.length]
  ∧ ∀ feats2 : List Feat, feats.Perm feats2 →
      cluster_by_kmeans feats2 1 fuel =
        some (feats2.map fun f => ⟨f.feat, 0⟩,
          [⟨(feats.map Feat.feat).sum / feats.length, 0, 0⟩]) := by
  refine ⟨kmeans_k1 feats fuel hne hfuel hsum, ?_, ?_⟩
  · obtain ⟨f0, fs, rfl⟩ : ∃ f0 fs, feats = f0 :: fs := by
      cases feats with
      | nil => exact absurd rfl hne
      | cons f0 fs => exact ⟨f0, fs, rfl⟩
    have hidx : ∀ g ∈ (f0 :: fs).map fun f => (⟨f.feat, 0⟩ : Feat), g.idx_clst = 0 := by
      intro g hg
      obtain ⟨f, _, rfl⟩ := List.mem_map.mp hg
      rfl
    have hfeatmap : (((f0 :: fs).map fun f => (⟨f.feat, 0⟩ : Feat)).map Feat.feat)
        = (f0 :: fs).map Feat.feat := by
      rw [List.map_map]
      rfl
    have hlenmap : ((f0 :: fs).map fun f => (⟨f.feat, 0⟩ : Feat)).length = (f0 :: fs).length :=
      List.length_map _ _
    have htake : (((f0 :: fs).take 1).map fun f => (⟨f.feat, 0, 0⟩ : Cluster))
        = [⟨f0.feat, 0, 0⟩] := by simp
    rw [htake, kmOnePass_single _ _ hidx (by norm_num [U64]) (by simp),
      hfeatmap, hlenmap]
    simp only [Option.map_some, Nat.zero_add]
    rw [Nat.mod_eq_of_lt hsum]
    simp
  · intro feats2 hperm
    have hne2 : feats2 ≠ [] := by
      intro h
      rw [h] at hperm
      exact hne (List.Perm.eq_nil hperm)
    have hsumeq : (feats2.map Feat.feat).sum = (feats.map Feat.feat).sum :=
      ((hperm.map Feat.feat).sum_eq).symm
    have hleneq : feats2.length = feats.length := (hperm.length_eq).symm
    rw [kmeans_k1 feats2 fuel hne2 hfuel (by rw [hsumeq]; exact hsum), hsumeq, hleneq]

/-- C8 witness: features `[2, 4]` with fuel 2 converge to centroid 3. -/
theorem C8_kmeans_k1_floored_mean_witness :
    cluster_by_kmeans c8WFeats 1 2
      = some (c8WFeats.map fun f => ⟨f.feat, 0⟩,
        [⟨(c8WFeats.map Feat.feat).sum / c8WFeats.length, 0, 0⟩]) ∧
    (c8WFeats.map Feat.feat).sum / c8WFeats.length = 3 :=
  ⟨(C8_kmeans_k1_floored_mean c8WFeats 2 (by decide) (by decide) (by decide)).1, by decide⟩

/-- C8 counterexample: on features `[0, 1]`, the resulting centroid is
0, but the mean of all feature values is 1/2 ≠ 0 — the code's centroid
is the floored integer mean, not the mean. -/
theorem C8_kmeans_k1_counterexample :
    (cluster_by_kmeans c8CexFeats 1 2).map (fun r => r.2.map Cluster.centre) = some [0] ∧
    ¬((0 : ℚ) = ((c8CexFeats.map Feat.feat).sum : ℕ) / ((c8CexFeats.length : ℕ) : ℚ)) := by
  constructor
  · decide
  · norm_num [c8CexFeats]

/-! ## C3: Otsu on a binarized grid -/

/-- Unfolding equation for `omega` at 0. -/
theorem omega_zero_eq (img : PNM) :
    omega img 0 = (ni img 0 : ℚ) / (totalPx img : ℚ) := rfl

/-- Unfolding equation for `omega` at a successor. -/
theorem omega_succ_eq (img : PNM) (i : ℕ) :
    omega img (i + 1) = omega img i + (ni img (i + 1) : ℚ) / (totalPx img : ℚ) := rfl

/-- Unfolding equation for `muAcc` at 0. -/
theorem muAcc_zero_eq (img : PNM) : muAcc img 0 = 0 := rfl

/-- Unfolding equation for `muAcc` at a successor. -/
theorem muAcc_succ_eq (img : PNM) (i : ℕ) :
    muAcc img (i + 1)
      = muAcc img i + (((i + 1) * ni img (i + 1) : ℕ) : ℚ) / (totalPx img : ℚ) := rfl

/-- On a binary-valued grid the histogram vanishes away from 0 and
`max`. -/
theorem ni_zero_of_binary (img : PNM)
    (hbin : ∀ i ∈ Finset.range img.height, ∀ j ∈ Finset.range img.width,
      img.image i j = 0 ∨ img.image i j = img.max)
    (v : ℕ) (hv0 : v ≠ 0) (hvm : v ≠ img.max) : ni img v = 0 := by
  unfold ni
  apply Finset.sum_eq_zero
  intro i hi
  apply Finset.sum_eq_zero
  intro j hj
  rcases hbin i hi j hj with h | h
  · rw [h, if_neg (Ne.symm hv0)]
  · rw [h, if_neg (Ne.symm hvm)]

/-- The histogram over `[0, M]` counts every pixel once when all pixel
values are at most `M`. -/
theorem sum_ni_total (img : PNM) (M : ℕ)
    (h : ∀ i ∈ Finset.range img.height, ∀ j ∈ Finset.range img.width,
      img.image i j < M + 1) :
    ∑ v in Finset.range (M + 1), ni img v = totalPx img := by
  unfold ni totalPx
  rw [Finset.sum_comm]
  have hrow : ∀ i ∈ Finset.range img.height,
      (∑ v in Finset.range (M + 1), ∑ j in Finset.range img.width,
        if img.image i j = v then 1 else 0) = img.width := by
    intro i hi
    rw [Finset.sum_comm]
    have hcell : ∀ j ∈ Finset.range img.width,
        (∑ v in Finset.range (M + 1), if img.image i j = v then 1 else 0) = 1 := by
      intro j hj
      rw [Finset.sum_ite_eq (Finset.range (M + 1)) (img.image i j) (fun _ => 1),
        if_pos (Finset.mem_range.mpr (h i hi j hj))]
    rw [Finset.sum_congr rfl hcell]
    simp
  rw [Finset.sum_congr rfl hrow]
  simp [mul_comm]

/-- On a binary-valued grid with `max ≥ 1`, the two histogram classes
partition the pixels. -/
theorem n0_add_nm (img : PNM)
    (hbin : ∀ i ∈ Finset.range img.height, ∀ j ∈ Finset.range img.width,
      img.image i j = 0 ∨ img.image i j = img.max)
    (hm : 1 ≤ img.max) :
    ni img 0 + ni img img.max = totalPx img := by
  have hsub : ({0, img.max} : Finset ℕ) ⊆ Finset.range (img.max + 1) := by
    intro x hx
    rcases Finset.mem_insert.mp hx with rfl | hx2
    · exact Finset.mem_range.mpr (by omega)
    · rw [Finset.mem_singleton.mp hx2]
      exact Finset.mem_range.mpr (by omega)
  have hzero : ∀ x ∈ Finset.range (img.max + 1), x ∉ ({0, img.max} : Finset ℕ) →
      ni img x = 0 := by
    intro x _ hx
    have hx0 : x ≠ 0 := fun h => hx (by rw [h]; exact Finset.mem_insert_self 0 _)
    have hxm : x ≠ img.max := fun h => hx (by
      rw [h]
      exact Finset.mem_insert_of_mem (Finset.mem_singleton_self _))
    exact ni_zero_of_binary img hbin x hx0 hxm
  have hpair : ∑ v in ({0, img.max} : Finset ℕ), ni img v = ni img 0 + ni img img.max :=
    Finset.sum_pair (by omega)
  have htot := sum_ni_total img img.max (by
    intro i hi j hj
    rcases hbin i hi j hj with h | h <;> omega)
  rw [← htot, ← Finset.sum_subset hsub hzero, hpair]

/-- Below `max` the cumulative fraction is constant on a binary-valued
grid. -/
theorem omega_lt_maxv (img : PNM)
    (hbin : ∀ i ∈ Finset.range img.height, ∀ j ∈ Finset.range img.width,
      img.image i j = 0 ∨ img.image i j = img.max) :
    ∀ i, i < img.max → omega img i = (ni img 0 : ℚ) / (totalPx img : ℚ) := by
  intro i
  induction i with
  | zero => intro _; rfl
  | succ k ih =>
    intro hk
    rw [omega_succ_eq, ih (by omega),
      ni_zero_of_binary img hbin (k + 1) (by omega) (by omega)]
    norm_num

/-- At `max ≥ 1` the cumulative fraction reaches exactly 1 on a nonempty
binary-valued grid. -/
theorem omega_at_maxv (img : PNM)
    (hbin : ∀ i ∈ Finset.range img.height, ∀ j ∈ Finset.range img.width,
      img.image i j = 0 ∨ img.image i j = img.max)
    (hm : 1 ≤ img.max) (hT : totalPx img ≠ 0) :
    omega img img.max = 1 := by
  obtain ⟨k, hk⟩ : ∃ k, img.max = k + 1 := ⟨img.max - 1, by omega⟩
  rw [hk, omega_succ_eq, omega_lt_maxv img hbin k (by omega), div_add_div_same,
    ← Nat.cast_add, ← hk, n0_add_nm img hbin hm]
  exact div_self (Nat.cast_ne_zero.mpr hT)

/-- Below `max` the cumulative weighted mean is 0 on a binary-valued
grid. -/
theorem muAcc_lt_maxv (img : PNM)
    (hbin : ∀ i ∈ Finset.range img.height, ∀ j ∈ Finset.range img.width,
      img.image i j = 0 ∨ img.image i j = img.max) :
    ∀ i, i < img.max → muAcc img i = 0 := by
  intro i
  induction i with
  | zero => intro _; rfl
  | succ k ih =>
    intro hk
    rw [muAcc_succ_eq, ih (by omega),
      ni_zero_of_binary img hbin (k + 1) (by omega) (by omega)]
    norm_num

/-- The cumulative weighted mean at `max` on a binary-valued grid. -/
theorem muAcc_at_maxv (img : PNM)
    (hbin : ∀ i ∈ Finset.range img.height, ∀ j ∈ Finset.range img.width,
      img.image i j = 0 ∨ img.image i j = img.max)
    (hm : 1 ≤ img.max) :
    muAcc img img.max = ((img.max * ni img img.max : ℕ) : ℚ) / (totalPx img : ℚ) := by
  obtain ⟨k, hk⟩ : ∃ k, img.max = k + 1 := ⟨img.max - 1, by omega⟩
  rw [hk, muAcc_succ_eq, muAcc_lt_maxv img hbin k (by omega), ← hk, zero_add]

/-- With no pixels at all, every cumulative fraction is 0 (in `ℚ`;
the C code divides by zero into NaN there and likewise never updates
its accumulator). -/
theorem omega_total_zero (img : PNM) (hT : totalPx img = 0) :
    ∀ k, omega img k = 0 := by
  intro k
  induction k with
  | zero => rw [omega_zero_eq, hT]; norm_num
  | succ n ih => rw [omega_succ_eq, ih, hT]; norm_num

/-- A run of skipped candidates (`omega = 0`) advances the scan without
touching the accumulator. -/
theorem ftGo_skip (img : PNM) (maxv : ℕ) :
    ∀ (n i : ℕ) (mv : ℚ) (mvv m : ℕ),
      (∀ k, i ≤ k → k < i + n → omega img k = 0) →
      ftGo img maxv (n + m) i mv mvv = ftGo img maxv m (i + n) mv mvv := by
  intro n
  induction n with
  | zero => intro i mv mvv m _; simp
  | succ n ih =>
    intro i mv mvv m h
    have h0 : omega img i = 0 := h i le_rfl (by omega)
    have heq : n + 1 + m = n + m + 1 := by omega
    rw [heq, ftGo, if_pos h0]
    have hrec := ih (i + 1) mv mvv m (fun k hk1 hk2 => h k (by omega) (by omega))
    have harg : i + 1 + n = i + (n + 1) := by omega
    rw [harg] at hrec
    exact hrec

/-- A run of candidates that neither skip, nor terminate, nor strictly
improve the best variance advances the scan without touching the
accumulator. -/
theorem ftGo_keep (img : PNM) (maxv : ℕ) :
    ∀ (n i : ℕ) (mv : ℚ) (mvv m : ℕ),
      (∀ k, i ≤ k → k < i + n →
        omega img k ≠ 0 ∧ omega img k ≠ 1 ∧ ¬ mv < btwVar img maxv k) →
      ftGo img maxv (n + m) i mv mvv = ftGo img maxv m (i + n) mv mvv := by
  intro n
  induction n with
  | zero => intro i mv mvv m _; simp
  | succ n ih =>
    intro i mv mvv m h
    obtain ⟨h0, h1, hv⟩ := h i le_rfl (by omega)
    have heq : n + 1 + m = n + m + 1 := by omega
    rw [heq, ftGo, if_neg h0, if_neg h1, if_neg hv]
    have hrec := ih (i + 1) mv mvv m (fun k hk1 hk2 => h k (by omega) (by omega))
    have harg : i + 1 + n = i + (n + 1) := by omega
    rw [harg] at hrec
    exact hrec

/-- On a binary-valued grid (all pixels 0 or `max`) Otsu returns 0 or
`max`: with both classes non-empty every candidate below `max` has the
same positive variance, so the first one (0) wins; otherwise the scan
never improves on the default `max`. -/
theorem find_threshold_binary (img : PNM)
    (hbin : ∀ i ∈ Finset.range img.height, ∀ j ∈ Finset.range img.width,
      img.image i j = 0 ∨ img.image i j = img.max) :
    find_threshold img = 0 ∨ find_threshold img = img.max := by
  unfold find_threshold
  by_cases hT : totalPx img = 0
  · right
    exact ftGo_skip img img.max (img.max + 1) 0 0 img.max 0
      (fun k _ _ => omega_total_zero img hT k)
  · by_cases hm0 : img.max = 0
    · right
      have hni : ni img 0 = totalPx img := by
        have h := sum_ni_total img 0 (by
          intro i hi j hj
          rcases hbin i hi j hj with h | h <;> omega)
        simpa using h
      have ho : omega img 0 = 1 := by
        rw [omega_zero_eq, hni]
        exact div_self (Nat.cast_ne_zero.mpr hT)
      rw [hm0]
      show (if omega img 0 = 0 then ftGo img 0 0 (0 + 1) 0 0
        else if omega img 0 = 1 then 0
        else if (0 : ℚ) < btwVar img 0 0 then ftGo img 0 0 (0 + 1) (btwVar img 0 0) 0
        else ftGo img 0 0 (0 + 1) 0 0) = 0
      rw [if_neg (by rw [ho]; norm_num), if_pos ho]
    · have hm : 1 ≤ img.max := by omega
      have htot := n0_add_nm img hbin hm
      by_cases hn0 : ni img 0 = 0
      · right
        have hsk := ftGo_skip img img.max img.max 0 0 img.max 1
          (fun k _ hk2 => by
            rw [omega_lt_maxv img hbin k (by omega), hn0]
            norm_num)
        rw [hsk]
        have hom : omega img (0 + img.max) = 1 := by
          rw [Nat.zero_add]
          exact omega_at_maxv img hbin hm hT
        show (if omega img (0 + img.max) = 0 then
            ftGo img img.max 0 (0 + img.max + 1) 0 img.max
          else if omega img (0 + img.max) = 1 then img.max
          else if (0 : ℚ) < btwVar img img.max (0 + img.max) then
            ftGo img img.max 0 (0 + img.max + 1) (btwVar img img.max (0 + img.max))
              (0 + img.max)
          else ftGo img img.max 0 (0 + img.max + 1) 0 img.max) = img.max
        rw [if_neg (by rw [hom]; norm_num), if_pos hom]
      · by_cases hnm : ni img img.max = 0
        · right
          have hn0T : ni img 0 = totalPx img := by omega
          have ho : omega img 0 = 1 := by
            rw [omega_zero_eq, hn0T]
            exact div_self (Nat.cast_ne_zero.mpr hT)
          show (if omega img 0 = 0 then ftGo img img.max img.max (0 + 1) 0 img.max
            else if omega img 0 = 1 then img.max
            else if (0 : ℚ) < btwVar img img.max 0 then
              ftGo img img.max img.max (0 + 1) (btwVar img img.max 0) 0
            else ftGo img img.max img.max (0 + 1) 0 img.max) = img.max
          rw [if_neg (by rw [ho]; norm_num), if_pos ho]
        · left
          have hTpos : (0 : ℚ) < (totalPx img : ℚ) :=
            Nat.cast_pos.mpr (Nat.pos_of_ne_zero hT)
          have hwpos : 0 < omega img 0 := by
            rw [omega_zero_eq]
            exact div_pos (Nat.cast_pos.mpr (Nat.pos_of_ne_zero hn0)) hTpos
          have hwlt : omega img 0 < 1 := by
            rw [omega_zero_eq, div_lt_one hTpos]
            exact_mod_cast (by omega : ni img 0 < totalPx img)
          have hmupos : 0 < muAcc img img.max := by
            rw [muAcc_at_maxv img hbin hm]
            refine div_pos ?_ hTpos
            exact_mod_cast Nat.mul_pos (by omega) (Nat.pos_of_ne_zero hnm)
          have hvpos : 0 < btwVar img img.max 0 := by
            unfold btwVar
            rw [muAcc_zero_eq, sub_zero]
            exact div_pos (pow_pos (mul_pos hmupos hwpos) 2)
              (mul_pos hwpos (by linarith))
          have e0 : ftGo img img.max (img.max + 1) 0 0 img.max
              = ftGo img img.max img.max 1 (btwVar img img.max 0) 0 := by
            show (if omega img 0 = 0 then ftGo img img.max img.max (0 + 1) 0 img.max
              else if omega img 0 = 1 then img.max
              else if (0 : ℚ) < btwVar img img.max 0 then
                ftGo img img.max img.max (0 + 1) (btwVar img img.max 0) 0
              else ftGo img img.max img.max (0 + 1) 0 img.max) = _
            rw [if_neg (ne_of_gt hwpos), if_neg (ne_of_lt hwlt), if_pos hvpos]
          obtain ⟨K, hK⟩ : ∃ K, img.max = K + 1 := ⟨img.max - 1, by omega⟩
          have hkeep := ftGo_keep img img.max K 1 (btwVar img img.max 0) 0 1
            (fun k hk1 hk2 => by
              have hklt : k < img.max := by omega
              have homk : omega img k = omega img 0 := by
                rw [omega_lt_maxv img hbin k hklt, omega_zero_eq]
              have hbtw : btwVar img img.max k = btwVar img img.max 0 := by
                unfold btwVar
                rw [homk, muAcc_lt_maxv img hbin k hklt, muAcc_zero_eq]
              exact ⟨by rw [homk]; exact ne_of_gt hwpos,
                by rw [homk]; exact ne_of_lt hwlt,
                by rw [hbtw]; exact lt_irrefl _⟩)
          rw [← hK] at hkeep
          have e2 : ftGo img img.max 1 (1 + K) (btwVar img img.max 0) 0 = 0 := by
            have hom : omega img (1 + K) = 1 := by
              rw [show 1 + K = img.max from by omega]
              exact omega_at_maxv img hbin hm hT
            show (if omega img (1 + K) = 0 then
                ftGo img img.max 0 (1 + K + 1) (btwVar img img.max 0) 0
              else if omega img (1 + K) = 1 then 0
              else if btwVar img img.max 0 < btwVar img img.max (1 + K) then
                ftGo img img.max 0 (1 + K + 1) (btwVar img img.max (1 + K)) (1 + K)
              else ftGo img img.max 0 (1 + K + 1) (btwVar img img.max 0) 0) = 0
            rw [if_neg (by rw [hom]; norm_num), if_pos hom]
          rw [e0, hkeep, e2]

/-- C3 (amended): for every grid, letting `t = find_threshold img`,
re-running Otsu on the grid binarized at `t` returns 0 or `max_value` —
not in general `t`.  (It equals `t` only in the cases `t = 0` or where
the binarized image is single-class.) -/
theorem C3_binarize_rerun_zero_or_max (img : PNM) :
    find_threshold (binarize img (find_threshold img)) = 0 ∨
    find_threshold (binarize img (find_threshold img)) = img.max := by
  have hbin : ∀ i ∈ Finset.range (binarize img (find_threshold img)).height,
      ∀ j ∈ Finset.range (binarize img (find_threshold img)).width,
      (binarize img (find_threshold img)).image i j = 0 ∨
        (binarize img (find_threshold img)).image i j
          = (binarize img (find_threshold img)).max := by
    intro i hi j hj
    have hij : i < img.height ∧ j < img.width :=
      ⟨Finset.mem_range.mp hi, Finset.mem_range.mp hj⟩
    show (if i < img.height ∧ j < img.width
        then (if find_threshold img < img.image i j then img.max else 0)
        else img.image i j) = 0 ∨
      (if i < img.height ∧ j < img.width
        then (if find_threshold img < img.image i j then img.max else 0)
        else img.image i j) = img.max
    rw [if_pos hij]
    by_cases hpx : find_threshold img < img.image i j
    · right
      rw [if_pos hpx]
    · left
      rw [if_neg hpx]
  exact find_threshold_binary (binarize img (find_threshold img)) hbin

/-- C3 counterexample: on the 1×2 grid `[1, 2]` with `max = 2`, Otsu
returns `t = 1`; binarizing at 1 yields `[0, 2]`, and re-running Otsu on
that returns 0 — neither `t` nor `max_value`.  So "returns `t` unchanged
or `max_value`" fails as stated. -/
theorem C3_binarize_rerun_counterexample :
    find_threshold c3CexImg = 1 ∧
    find_threshold (binarize c3CexImg (find_threshold c3CexImg)) = 0 ∧
    ¬(find_threshold (binarize c3CexImg (find_threshold c3CexImg)) = find_threshold c3CexImg ∨
      find_threshold (binarize c3CexImg (find_threshold c3CexImg)) = c3CexImg.max) := by
  have htp : totalPx c3CexImg = 2 := by decide
  have hni0 : ni c3CexImg 0 = 0 := by decide
  have hni1 : ni c3CexImg 1 = 1 := by decide
  have hni2 : ni c3CexImg 2 = 1 := by decide
  have ho0 : omega c3CexImg 0 = 0 := by
    rw [omega_zero_eq, hni0, htp]
    norm_num
  have ho1 : omega c3CexImg 1 = 1 / 2 := by
    show omega c3CexImg 0 + (ni c3CexImg 1 : ℚ) / (totalPx c3CexImg : ℚ) = 1 / 2
    rw [ho0, hni1, htp]
    norm_num
  have ho2 : omega c3CexImg 2 = 1 := by
    show omega c3CexImg 1 + (ni c3CexImg 2 : ℚ) / (totalPx c3CexImg : ℚ) = 1
    rw [ho1, hni2, htp]
    norm_num
  have hmu1 : muAcc c3CexImg 1 = 1 / 2 := by
    show muAcc c3CexImg 0 + ((1 * ni c3CexImg 1 : ℕ) : ℚ) / (totalPx c3CexImg : ℚ) = 1 / 2
    rw [muAcc_zero_eq, hni1, htp]
    norm_num
  have hmu2 : muAcc c3CexImg 2 = 3 / 2 := by
    show muAcc c3CexImg 1 + ((2 * ni c3CexImg 2 : ℕ) : ℚ) / (totalPx c3CexImg : ℚ) = 3 / 2
    rw [hmu1, hni2, htp]
    norm_num
  have hb1 : btwVar c3CexImg 2 1 = 1 / 4 := by
    unfold btwVar
    rw [hmu2, ho1, hmu1]
    norm_num
  have ht : find_threshold c3CexImg = 1 := by
    show ftGo c3CexImg 2 3 0 0 2 = 1
    have e0 : ftGo c3CexImg 2 3 0 0 2 = ftGo c3CexImg 2 2 1 0 2 := by
      show (if omega c3CexImg 0 = 0 then ftGo c3CexImg 2 2 (0 + 1) 0 2
        else if omega c3CexImg 0 = 1 then 2
        else if (0 : ℚ) < btwVar c3CexImg 2 0 then
          ftGo c3CexImg 2 2 (0 + 1) (btwVar c3CexImg 2 0) 0
        else ftGo c3CexImg 2 2 (0 + 1) 0 2) = ftGo c3CexImg 2 2 1 0 2
      rw [if_pos ho0]
    have e1 : ftGo c3CexImg 2 2 1 0 2 = ftGo c3CexImg 2 1 2 (btwVar c3CexImg 2 1) 1 := by
      show (if omega c3CexImg 1 = 0 then ftGo c3CexImg 2 1 (1 + 1) 0 2
        else if omega c3CexImg 1 = 1 then 2
        else if (0 : ℚ) < btwVar c3CexImg 2 1 then
          ftGo c3CexImg 2 1 (1 + 1) (btwVar c3CexImg 2 1) 1
        else ftGo c3CexImg 2 1 (1 + 1) 0 2) = ftGo c3CexImg 2 1 2 (btwVar c3CexImg 2 1) 1
      rw [if_neg (by rw [ho1]; norm_num), if_neg (by rw [ho1]; norm_num),
        if_pos (by rw [hb1]; norm_num)]
    have e2 : ftGo c3CexImg 2 1 2 (btwVar c3CexImg 2 1) 1 = 1 := by
      show (if omega c3CexImg 2 = 0 then ftGo c3CexImg 2 0 (2 + 1) (btwVar c3CexImg 2 1) 1
        else if omega c3CexImg 2 = 1 then 1
        else if btwVar c3CexImg 2 1 < btwVar c3CexImg 2 2 then
          ftGo c3CexImg 2 0 (2 + 1) (btwVar c3CexImg 2 2) 2
        else ftGo c3CexImg 2 0 (2 + 1) (btwVar c3CexImg 2 1) 1) = 1
      rw [if_neg (by rw [ho2]; norm_num), if_pos ho2]
    rw [e0, e1, e2]
  have htp2 : totalPx (binarize c3CexImg 1) = 2 := by decide
  have k0 : ni (binarize c3CexImg 1) 0 = 1 := by decide
  have k1 : ni (binarize c3CexImg 1) 1 = 0 := by decide
  have k2 : ni (binarize c3CexImg 1) 2 = 1 := by decide
  have g2o0 : omega (binarize c3CexImg 1) 0 = 1 / 2 := by
    rw [omega_zero_eq, k0, htp2]
    norm_num
  have g2o1 : omega (binarize c3CexImg 1) 1 = 1 / 2 := by
    show omega (binarize c3CexImg 1) 0
      + (ni (binarize c3CexImg 1) 1 : ℚ) / (totalPx (binarize c3CexImg 1) : ℚ) = 1 / 2
    rw [g2o0, k1, htp2]
    norm_num
  have g2o2 : omega (binarize c3CexImg 1) 2 = 1 := by
    show omega (binarize c3CexImg 1) 1
      + (ni (binarize c3CexImg 1) 2 : ℚ) / (totalPx (binarize c3CexImg 1) : ℚ) = 1
    rw [g2o1, k2, htp2]
    norm_num
  have g2mu1 : muAcc (binarize c3CexImg 1) 1 = 0 := by
    show muAcc (binarize c3CexImg 1) 0
      + ((1 * ni (binarize c3CexImg 1) 1 : ℕ) : ℚ) / (totalPx (binarize c3CexImg 1) : ℚ) = 0
    rw [muAcc_zero_eq, k1, htp2]
    norm_num
  have g2mu2 : muAcc (binarize c3CexImg 1) 2 = 1 := by
    show muAcc (binarize c3CexImg 1) 1
      + ((2 * ni (binarize c3CexImg 1) 2 : ℕ) : ℚ) / (totalPx (binarize c3CexImg 1) : ℚ) = 1
    rw [g2mu1, k2, htp2]
    norm_num
  have g2b0 : btwVar (binarize c3CexImg 1) 2 0 = 1 := by
    unfold btwVar
    rw [g2mu2, g2o0, muAcc_zero_eq]
    norm_num
  have g2b1 : btwVar (binarize c3CexImg 1) 2 1 = 1 := by
    unfold btwVar
    rw [g2mu2, g2o1, g2mu1]
    norm_num
  have hre : find_threshold (binarize c3CexImg 1) = 0 := by
    show ftGo (binarize c3CexImg 1) 2 3 0 0 2 = 0
    have f0 : ftGo (binarize c3CexImg 1) 2 3 0 0 2
        = ftGo (binarize c3CexImg 1) 2 2 1 (btwVar (binarize c3CexImg 1) 2 0) 0 := by
      show (if omega (binarize c3CexImg 1) 0 = 0 then ftGo (binarize c3CexImg 1) 2 2 (0 + 1) 0 2
        else if omega (binarize c3CexImg 1) 0 = 1 then 2
        else if (0 : ℚ) < btwVar (binarize c3CexImg 1) 2 0 then
          ftGo (binarize c3CexImg 1) 2 2 (0 + 1) (btwVar (binarize c3CexImg 1) 2 0) 0
        else ftGo (binarize c3CexImg 1) 2 2 (0 + 1) 0 2)
        = ftGo (binarize c3CexImg 1) 2 2 1 (btwVar (binarize c3CexImg 1) 2 0) 0
      rw [if_neg (by rw [g2o0]; norm_num), if_neg (by rw [g2o0]; norm_num),
        if_pos (by rw [g2b0]; norm_num)]
    have f1 : ftGo (binarize c3CexImg 1) 2 2 1 (btwVar (binarize c3CexImg 1) 2 0) 0
        = ftGo (binarize c3CexImg 1) 2 1 2 (btwVar (binarize c3CexImg 1) 2 0) 0 := by
      show (if omega (binarize c3CexImg 1) 1 = 0 then
          ftGo (binarize c3CexImg 1) 2 1 (1 + 1) (btwVar (binarize c3CexImg 1) 2 0) 0
        else if omega (binarize c3CexImg 1) 1 = 1 then 0
        else if btwVar (binarize c3CexImg 1) 2 0 < btwVar (binarize c3CexImg 1) 2 1 then
          ftGo (binarize c3CexImg 1) 2 1 (1 + 1) (btwVar (binarize c3CexImg 1) 2 1) 1
        else ftGo (binarize c3CexImg 1) 2 1 (1 + 1) (btwVar (binarize c3CexImg 1) 2 0) 0)
        = ftGo (binarize c3CexImg 1) 2 1 2 (btwVar (binarize c3CexImg 1) 2 0) 0
      rw [if_neg (by rw [g2o1]; norm_num), if_neg (by rw [g2o1]; norm_num),
        if_neg (by rw [g2b0, g2b1]; norm_num)]
    have f2 : ftGo (binarize c3CexImg 1) 2 1 2 (btwVar (binarize c3CexImg 1) 2 0) 0 = 0 := by
      show (if omega (binarize c3CexImg 1) 2 = 0 then
          ftGo (binarize c3CexImg 1) 2 0 (2 + 1) (btwVar (binarize c3CexImg 1) 2 0) 0
        else if omega (binarize c3CexImg 1) 2 = 1 then 0
        else if btwVar (binarize c3CexImg 1) 2 0 < btwVar (binarize c3CexImg 1) 2 2 then
          ftGo (binarize c3CexImg 1) 2 0 (2 + 1) (btwVar (binarize c3CexImg 1) 2 2) 2
        else ftGo (binarize c3CexImg 1) 2 0 (2 + 1) (btwVar (binarize c3CexImg 1) 2 0) 0) = 0
      rw [if_neg (by rw [g2o2]; norm_num), if_pos g2o2]
    rw [f0, f1, f2]
  refine ⟨ht, ?_, ?_⟩
  · rw [ht]
    exact hre
  · rw [ht, hre]
    decide

/-! ## C1: pruned nearest-region search against the exhaustive spec -/

/-- On a non-empty pixel list, the early-exit accumulation aborts exactly
when the total reaches the incumbent minimum (partial sums of
nonnegative terms are monotone), completing with the total otherwise. -/
theorem sadLoop_eq :
    ∀ (l : List ℕ) (acc m : ℕ), l ≠ [] →
      sadLoop l acc m = if m ≤ acc + l.sum then none else some (acc + l.sum) := by
  intro l
  induction l with
  | nil => intro acc m h; exact absurd rfl h
  | cons d rest ih =>
    intro acc m _
    rw [sadLoop]
    cases rest with
    | nil =>
      rw [List.sum_cons, List.sum_nil]
      by_cases h : m ≤ acc + d
      · rw [if_pos h, if_pos (by omega)]
      · rw [if_neg h, if_neg (by omega)]
        rfl
    | cons e tail =>
      by_cases h : m ≤ acc + d
      · rw [if_pos h, if_pos (by
          rw [List.sum_cons]
          omega)]
      · rw [if_neg h, ih (acc + d) m (by simp)]
        have harith : acc + d + (e :: tail).sum = acc + (d :: e :: tail).sum := by
          simp only [List.sum_cons]
          omega
        rw [harith]

/-- A running minimum never exceeds its seed. -/
theorem foldrMin_le (l : List ℕ) (m : ℕ) : l.foldr min m ≤ m := by
  induction l with
  | nil => exact le_refl m
  | cons x xs ih => exact le_trans (min_le_right x _) ih

/-- Lowering the seed of a running minimum below the old one
distributes. -/
theorem foldrMin_init_lt (l : List ℕ) (a m : ℕ) (h : a < m) :
    l.foldr min a = min a (l.foldr min m) := by
  induction l with
  | nil => simp [Nat.min_eq_left (le_of_lt h)]
  | cons x xs ih =>
    simp only [List.foldr]
    rw [ih, min_left_comm]

/-- A running minimum strictly below its seed is attained in the list. -/
theorem foldrMin_mem (l : List ℕ) (m : ℕ) (h : l.foldr min m < m) : l.foldr min m ∈ l := by
  induction l with
  | nil => exact absurd h (lt_irrefl m)
  | cons x xs ih =>
    simp only [List.foldr] at h ⊢
    rcases le_total x (xs.foldr min m) with hle | hle
    · rw [min_eq_left hle] at h ⊢
      exact List.mem_cons_self x xs
    · rw [min_eq_right hle] at h ⊢
      exact List.mem_cons_of_mem x (ih h)

/-- `find?` only depends on the predicate's values on the list. -/
theorem find?_congr {α : Type} (p q : α → Bool) :
    ∀ l : List α, (∀ x ∈ l, p x = q x) → l.find? p = l.find? q := by
  intro l
  induction l with
  | nil => intro _; rfl
  | cons x xs ih =>
    intro h
    by_cases hq : q x = true
    · rw [List.find?_cons_of_pos _ (by rw [h x (List.mem_cons_self x xs)]; exact hq),
        List.find?_cons_of_pos _ hq]
    · rw [List.find?_cons_of_neg _ (by rw [h x (List.mem_cons_self x xs)]; exact hq),
        List.find?_cons_of_neg _ hq]
      exact ih fun y hy => h y (List.mem_cons_of_mem x hy)

/-- The placement scan computes the running minimum of the completed
totals together with the first placement strictly improving on
everything before it: the pruned scan equals, in one pass, the minimum
of all totals (and the seed) and the first row-major placement attaining
it among those below the seed. -/
theorem fnrGo_spec (tgt tpl : PNM) (hne : ∀ i j : ℕ, sadList tgt tpl i j ≠ []) :
    ∀ (ps : List (ℕ × ℕ)) (m : ℕ) (b : Point),
      fnrGo tgt tpl ps m b =
        ((ps.map fun q => sadTotal tgt tpl q.1 q.2).foldr min m,
         match ps.find? (fun q => decide (sadTotal tgt tpl q.1 q.2 < m ∧
             sadTotal tgt tpl q.1 q.2
               = (ps.map fun r => sadTotal tgt tpl r.1 r.2).foldr min m)) with
         | some q => ⟨q.1, q.2⟩
         | none => b) := by
  intro ps
  induction ps with
  | nil => intro m b; rfl
  | cons hd ps ih =>
    intro m b
    obtain ⟨i, j⟩ := hd
    rw [fnrGo, sadLoop_eq _ _ _ (hne i j), Nat.zero_add,
      (show (sadList tgt tpl i j).sum = sadTotal tgt tpl i j from rfl)]
    by_cases hcase : m ≤ sadTotal tgt tpl i j
    · rw [if_pos hcase]
      show fnrGo tgt tpl ps m b = _
      rw [ih]
      have hM : (((i, j) :: ps).map fun q => sadTotal tgt tpl q.1 q.2).foldr min m
          = (ps.map fun q => sadTotal tgt tpl q.1 q.2).foldr min m := by
        rw [List.map_cons, List.foldr_cons]
        exact min_eq_right (le_trans (foldrMin_le _ m) hcase)
      rw [hM, List.find?_cons_of_neg _ (by
        simp only [decide_eq_true_eq, not_and]
        intro hlt
        omega)]
    · rw [if_neg hcase]
      show fnrGo tgt tpl ps (sadTotal tgt tpl i j) ⟨i, j⟩ = _
      rw [ih]
      have hlt : sadTotal tgt tpl i j < m := by omega
      have hA : (ps.map fun q => sadTotal tgt tpl q.1 q.2).foldr min (sadTotal tgt tpl i j)
          = min (sadTotal tgt tpl i j) ((ps.map fun q => sadTotal tgt tpl q.1 q.2).foldr min m) :=
        foldrMin_init_lt _ _ _ hlt
      have hMcons : (((i, j) :: ps).map fun q => sadTotal tgt tpl q.1 q.2).foldr min m
          = min (sadTotal tgt tpl i j) ((ps.map fun q => sadTotal tgt tpl q.1 q.2).foldr min m) := by
        rw [List.map_cons, List.foldr_cons]
      rw [hA, hMcons]
      rcases le_or_lt (sadTotal tgt tpl i j)
          ((ps.map fun q => sadTotal tgt tpl q.1 q.2).foldr min m) with hle | hgt
      · have hminL : min (sadTotal tgt tpl i j)
            ((ps.map fun q => sadTotal tgt tpl q.1 q.2).foldr min m) = sadTotal tgt tpl i j :=
          min_eq_left hle
        rw [hminL, List.find?_cons_of_pos _ (by simp [hlt])]
        have hnone : ps.find? (fun q => decide (sadTotal tgt tpl q.1 q.2 < sadTotal tgt tpl i j ∧
            sadTotal tgt tpl q.1 q.2 = sadTotal tgt tpl i j)) = none := by
          rw [List.find?_eq_none]
          intro q _
          simp only [decide_eq_true_eq, not_and]
          intro hq1 hq2
          omega
        rw [hnone]
      · have hminR : min (sadTotal tgt tpl i j)
            ((ps.map fun q => sadTotal tgt tpl q.1 q.2).foldr min m)
            = (ps.map fun q => sadTotal tgt tpl q.1 q.2).foldr min m :=
          min_eq_right (le_of_lt hgt)
        rw [hminR, List.find?_cons_of_neg _ (by
          simp only [decide_eq_true_eq, not_and]
          intro _
          omega)]
        have hcong := find?_congr
          (fun q => decide (sadTotal tgt tpl q.1 q.2 < sadTotal tgt tpl i j ∧
            sadTotal tgt tpl q.1 q.2 = (ps.map fun r => sadTotal tgt tpl r.1 r.2).foldr min m))
          (fun q => decide (sadTotal tgt tpl q.1 q.2 < m ∧
            sadTotal tgt tpl q.1 q.2 = (ps.map fun r => sadTotal tgt tpl r.1 r.2).foldr min m))
          ps (by
            intro q _
            simp only [decide_eq_true_eq]
            by_cases hq : sadTotal tgt tpl q.1 q.2
                = (ps.map fun r => sadTotal tgt tpl r.1 r.2).foldr min m
            · simp only [hq]
              have h1 : (ps.map fun r => sadTotal tgt tpl r.1 r.2).foldr min m
                  < sadTotal tgt tpl i j := hgt
              have h2 : (ps.map fun r => sadTotal tgt tpl r.1 r.2).foldr min m < m := by
                omega
              simp [h1, h2]
            · simp [hq])
        rw [hcong]
        have hmem : (ps.map fun r => sadTotal tgt tpl r.1 r.2).foldr min m
            ∈ ps.map fun r => sadTotal tgt tpl r.1 r.2 :=
          foldrMin_mem _ _ (by omega)
        obtain ⟨q, hq, hqval⟩ := List.mem_map.mp hmem
        cases hf : ps.find? (fun q => decide (sadTotal tgt tpl q.1 q.2 < m ∧
            sadTotal tgt tpl q.1 q.2
              = (ps.map fun r => sadTotal tgt tpl r.1 r.2).foldr min m)) with
        | none =>
          exfalso
          have := List.find?_eq_none.mp hf q hq
          simp only [decide_eq_true_eq, not_and] at this
          exact this (by omega) hqval
        | some p => rfl

/-- Membership in the placement list is exactly the C loop bounds. -/
theorem mem_placements (tgt tpl : PNM) (q : ℕ × ℕ) :
    q ∈ placements tgt tpl ↔
      q.1 < tgt.height - tpl.height + 1 ∧ q.2 < tgt.width - tpl.width + 1 := by
  unfold placements
  constructor
  · intro hq
    obtain ⟨i, hi, hq2⟩ := List.mem_flatMap.mp hq
    obtain ⟨j, hj, rfl⟩ := List.mem_map.mp hq2
    exact ⟨List.mem_range.mp hi, List.mem_range.mp hj⟩
  · intro ⟨h1, h2⟩
    refine List.mem_flatMap.mpr ⟨q.1, List.mem_range.mpr h1, ?_⟩
    exact List.mem_map.mpr ⟨q.2, List.mem_range.mpr h2, rfl⟩

/-- On well-formed grids every placement total is far below
`ULLONG_MAX`: at most 4096·4096 terms, each under 65536 (no `big_uint`
overflow in the C accumulation, and the seed is never matched). -/
theorem sadTotal_lt_ULLMAX (tgt tpl : PNM) (hwf1 : wellFormed tgt) (hwf2 : wellFormed tpl)
    (hh : tpl.height ≤ tgt.height) (hw : tpl.width ≤ tgt.width)
    (i j : ℕ) (hi : i < tgt.height - tpl.height + 1) (hj : j < tgt.width - tpl.width + 1) :
    sadTotal tgt tpl i j < ULLMAX := by
  obtain ⟨hw1, hh1, hm1, hpx1⟩ := hwf1
  obtain ⟨hw2, hh2, hm2, hpx2⟩ := hwf2
  have hlen : (sadList tgt tpl i j).length = tpl.height * tpl.width := by
    unfold sadList
    rw [List.length_flatMap]
    have hmap : (List.range tpl.height).map
        (List.length ∘ fun k => ((List.range tpl.width).map
          (fun l => diffN (tgt.image (i + k) (j + l)) (tpl.image k l))))
        = (List.range tpl.height).map (fun _ => tpl.width) := by
      apply List.map_congr_left
      intro k _
      show ((List.range tpl.width).map
        (fun l => diffN (tgt.image (i + k) (j + l)) (tpl.image k l))).length = tpl.width
      rw [List.length_map, List.length_range]
    rw [hmap, List.map_const', List.sum_replicate, List.length_range, smul_eq_mul]
  have hbound : ∀ d ∈ sadList tgt tpl i j, d ≤ 65535 := by
    intro d hd
    unfold sadList at hd
    obtain ⟨k, hk, hd2⟩ := List.mem_flatMap.mp hd
    obtain ⟨l, hl, rfl⟩ := List.mem_map.mp hd2
    have hk2 := List.mem_range.mp hk
    have hl2 := List.mem_range.mp hl
    have h1 : tgt.image (i + k) (j + l) ≤ tgt.max :=
      hpx1 _ (Finset.mem_range.mpr (by omega)) _ (Finset.mem_range.mpr (by omega))
    have h2 : tpl.image k l ≤ tpl.max :=
      hpx2 _ (Finset.mem_range.mpr (by omega)) _ (Finset.mem_range.mpr (by omega))
    unfold diffN
    split <;> omega
  have hsum : sadTotal tgt tpl i j ≤ (sadList tgt tpl i j).length * 65535 := by
    have := List.sum_le_card_nsmul (sadList tgt tpl i j) 65535 hbound
    simpa [smul_eq_mul] using this
  have hsz : (sadList tgt tpl i j).length ≤ 4096 * 4096 := by
    rw [hlen]
    exact Nat.mul_le_mul hh2 hw2
  calc sadTotal tgt tpl i j ≤ (sadList tgt tpl i j).length * 65535 := hsum
    _ ≤ 4096 * 4096 * 65535 := Nat.mul_le_mul_right _ hsz
    _ < ULLMAX := by norm_num [ULLMAX]

/-- C1 (amended): for every well-formed target and every well-formed
template with at least one row and one column whose dimensions do not
exceed the target's, the early-exit search returns exactly the
exhaustive result: the minimum total absolute difference over all
placements, together with the first row-major placement attaining it.
(For a degenerate 0-row or 0-column template the pruned code instead
reports the last placement — see the counterexample.) -/
theorem C1_pruned_search_exhaustive (tgt tpl : PNM)
    (hwf1 : wellFormed tgt) (hwf2 : wellFormed tpl)
    (hth : 0 < tpl.height) (htw : 0 < tpl.width)
    (hh : tpl.height ≤ tgt.height) (hw : tpl.width ≤ tgt.width) :
    find_nearest_region tgt tpl = (bestDistSpec tgt tpl, bestPlacementSpec tgt tpl) := by
  have hne : ∀ i j : ℕ, sadList tgt tpl i j ≠ [] := by
    intro i j
    have hmem : diffN (tgt.image (i + 0) (j + 0)) (tpl.image 0 0) ∈ sadList tgt tpl i j := by
      unfold sadList
      refine List.mem_flatMap.mpr ⟨0, List.mem_range.mpr hth, ?_⟩
      exact List.mem_map.mpr ⟨0, List.mem_range.mpr htw, rfl⟩
    exact List.ne_nil_of_mem hmem
  unfold find_nearest_region bestDistSpec bestPlacementSpec
  rw [fnrGo_spec tgt tpl hne (placements tgt tpl) ULLMAX ⟨0, 0⟩]
  have hcong := find?_congr
    (fun q => decide (sadTotal tgt tpl q.1 q.2 < ULLMAX ∧
      sadTotal tgt tpl q.1 q.2
        = ((placements tgt tpl).map fun r => sadTotal tgt tpl r.1 r.2).foldr min ULLMAX))
    (fun q => decide (sadTotal tgt tpl q.1 q.2
        = ((placements tgt tpl).map fun r => sadTotal tgt tpl r.1 r.2).foldr min ULLMAX))
    (placements tgt tpl) (by
      intro q hq
      obtain ⟨h1, h2⟩ := (mem_placements tgt tpl q).mp hq
      have hlt := sadTotal_lt_ULLMAX tgt tpl hwf1 hwf2 hh hw q.1 q.2 h1 h2
      simp [hlt])
  rw [hcong]
  rfl

/-- C1 witness: the pruned search against the exhaustive spec on a 1×2
target `[0, 9]` with the 1×1 template `[9]` (best distance 0 at
placement (0, 1)). -/
theorem C1_pruned_search_exhaustive_witness :
    wellFormed c1Tgt ∧ wellFormed c1Tpl ∧
    find_nearest_region c1Tgt c1Tpl = (bestDistSpec c1Tgt c1Tpl, bestPlacementSpec c1Tgt c1Tpl) ∧
    find_nearest_region c1Tgt c1Tpl = (0, ⟨0, 1⟩) :=
  ⟨by decide, by decide,
   C1_pruned_search_exhaustive c1Tgt c1Tpl (by decide) (by decide) (by decide) (by decide)
     (by decide) (by decide),
   by decide⟩

/-- C1 counterexample: with the degenerate (but readable) 0×0 template
on a 1×1 target, every placement has total distance 0 and never
triggers the in-loop early-exit check, so `find_nearest_region` updates
`nearest` at every placement and ends at the LAST placement (1, 1),
while the exhaustive specification names the first row-major placement
(0, 0).  The claim as stated (over all templates with dimensions not
exceeding the target's) therefore fails. -/
theorem C1_pruned_search_counterexample :
    c1CexTpl.height ≤ c1CexTgt.height ∧ c1CexTpl.width ≤ c1CexTgt.width ∧
    find_nearest_region c1CexTgt c1CexTpl
      ≠ (bestDistSpec c1CexTgt c1CexTpl, bestPlacementSpec c1CexTgt c1CexTpl) ∧
    (find_nearest_region c1CexTgt c1CexTpl).2 = ⟨1, 1⟩ ∧
    bestPlacementSpec c1CexTgt c1CexTpl = ⟨0, 0⟩ := by
  refine ⟨by decide, by decide, ?_, by decide, by decide⟩
  decide

/-! ## C4: the stored label_max of a failed label_all -/

/-- Along the scan, the running `l_val` counter exceeds the number of
completed components by exactly one; hence on either failure branch the
stored value (`l_val − 2` after an overflow, `l_val − 1` after label
exhaustion) equals the completed-component count. -/
theorem laGo_count (cap : ℕ) :
    ∀ (ps : List (ℕ × ℕ)) (img img2 : PNM) (lval acc m : ℕ),
      lval = acc + 1 →
      laGo cap ps img lval = some (false, img2, m) →
      m = ccGo cap ps img lval acc := by
  intro ps
  induction ps with
  | nil =>
    intro img img2 lval acc m hl hrun
    rw [laGo] at hrun
    simp at hrun
  | cons hd ps ih =>
    intro img img2 lval acc m hl hrun
    obtain ⟨i, j⟩ := hd
    rw [laGo] at hrun
    rw [ccGo]
    by_cases hpx : img.image i j = img.max
    · rw [if_pos hpx] at hrun ⊢
      cases hlr : label_region cap img i j lval with
      | none =>
        rw [hlr] at hrun
        simp at hrun
      | some r =>
        obtain ⟨bb, img3⟩ := r
        rw [hlr] at hrun
        cases bb with
        | false =>
          have hrun2 : some ((false, img3, lval + 1 - 2) : Bool × PNM × ℕ)
              = some (false, img2, m) := hrun
          have hm : lval + 1 - 2 = m := by
            have := congrArg (fun o => (Option.map (fun r => r.2.2) o).getD 0) hrun2
            simpa using this
          show m = acc
          omega
        | true =>
          have hrun2 : (if lval + 1 = img.max then some ((false, img3, lval + 1 - 1) : Bool × PNM × ℕ)
              else laGo cap ps img3 (lval + 1)) = some (false, img2, m) := hrun
          show m = if lval + 1 = img.max then acc + 1 else ccGo cap ps img3 (lval + 1) (acc + 1)
          by_cases hmax : lval + 1 = img.max
          · rw [if_pos hmax] at hrun2 ⊢
            have hm : lval + 1 - 1 = m := by
              have := congrArg (fun o => (Option.map (fun r => r.2.2) o).getD 0) hrun2
              simpa using this
            omega
          · rw [if_neg hmax] at hrun2 ⊢
            exact ih img3 img2 (lval + 1) (acc + 1) m (by omega) hrun2
    · rw [if_neg hpx] at hrun ⊢
      exact ih img img2 lval acc m hl hrun

/-- C4: whenever `label_all` fails — queue overflow in `label_region`
(storing `l_val − 2`) or the label counter reaching `max` (storing
`l_val − 1`) — the stored `label_max` equals the number of components
whose flood fill ran to completion before the failure. -/
theorem C4_label_all_failure_stores_completed (img img2 : PNM) (m : ℕ)
    (h : label_all img = some (false, img2, m)) :
    m = completedComponents img :=
  laGo_count QUEUE_SIZE (scanList img.height img.width) img img2 1 0 m rfl h

/-- C4 witness: on a 2×2 grid with `max = 2` and one foreground pixel,
`label_all` completes component 1, then fails by label exhaustion
(`l_val` reaches `max`), storing `label_max = 1` — the one completed
component. -/
theorem C4_label_all_failure_stores_completed_witness :
    completedComponents c4WImg = 1 ∧
    (label_all c4WImg).map (fun r => (r.1, r.2.2)) = some (false, 1) := by
  have hmap : (label_all c4WImg).map (fun r => (r.1, r.2.2)) = some (false, 1) := by decide
  refine ⟨?_, hmap⟩
  rcases h : label_all c4WImg with _ | ⟨b, img2, m⟩
  · rw [h] at hmap
    exact Option.noConfusion hmap
  · rw [h] at hmap
    have hmap2 : (b, m) = ((false : Bool), (1 : ℕ)) := Option.some.inj hmap
    have hb : b = false := congrArg Prod.fst hmap2
    have hm : m = 1 := congrArg Prod.snd hmap2
    rw [hb, hm] at h
    exact (C4_label_all_failure_stores_completed c4WImg img2 1 h).symm

/-! ## C5: flood fill with queue capacity 1 -/

/-- Membership in a guarded singleton prefix. -/
theorem mem_ite_cons_append (P : Prop) [Decidable P] (a : Point) (rest : List Point)
    (c : Point) : (c ∈ (if P then [a] else []) ++ rest) ↔ ((P ∧ c = a) ∨ c ∈ rest) := by
  by_cases h : P
  · simp [h]
  · simp [h]

/-- Membership in a guarded singleton. -/
theorem mem_ite_singleton (P : Prop) [Decidable P] (a c : Point) :
    (c ∈ (if P then [a] else [])) ↔ (P ∧ c = a) := by
  by_cases h : P
  · simp [h]
  · simp [h]

/-- The eight neighbour candidates, characterised. -/
theorem mem_nbrCandidates (h w : ℕ) (p c : Point) :
    c ∈ nbrCandidates h w p ↔
      ((1 ≤ p.y ∧ 1 ≤ p.x) ∧ c = ⟨p.y - 1, p.x - 1⟩) ∨
      (1 ≤ p.y ∧ c = ⟨p.y - 1, p.x⟩) ∨
      ((1 ≤ p.y ∧ p.x ≤ w - 2) ∧ c = ⟨p.y - 1, p.x + 1⟩) ∨
      (1 ≤ p.x ∧ c = ⟨p.y, p.x - 1⟩) ∨
      (p.x ≤ w - 2 ∧ c = ⟨p.y, p.x + 1⟩) ∨
      ((p.y ≤ h - 2 ∧ 1 ≤ p.x) ∧ c = ⟨p.y + 1, p.x - 1⟩) ∨
      (p.y ≤ h - 2 ∧ c = ⟨p.y + 1, p.x⟩) ∨
      ((p.y ≤ h - 2 ∧ p.x ≤ w - 2) ∧ c = ⟨p.y + 1, p.x + 1⟩) := by
  unfold nbrCandidates
  simp only [List.mem_append, mem_ite_singleton, or_assoc]

/-- No candidate is the dequeued point itself. -/
theorem nbrCandidates_ne (h w : ℕ) (p : Point) : ∀ c ∈ nbrCandidates h w p, c ≠ p := by
  intro c hc
  rw [mem_nbrCandidates] at hc
  rcases hc with ⟨⟨hy, hx⟩, rfl⟩ | ⟨hy, rfl⟩ | ⟨⟨hy, hx⟩, rfl⟩ | ⟨hx, rfl⟩ | ⟨hx, rfl⟩ |
    ⟨⟨hy, hx⟩, rfl⟩ | ⟨hy, rfl⟩ | ⟨⟨hy, hx⟩, rfl⟩
  · intro heq
    have h1 : p.y - 1 = p.y := congrArg Point.y heq
    omega
  · intro heq
    have h1 : p.y - 1 = p.y := congrArg Point.y heq
    omega
  · intro heq
    have h1 : p.y - 1 = p.y := congrArg Point.y heq
    omega
  · intro heq
    have h1 : p.x - 1 = p.x := congrArg Point.x heq
    omega
  · intro heq
    have h1 : p.x + 1 = p.x := congrArg Point.x heq
    omega
  · intro heq
    have h1 : p.y + 1 = p.y := congrArg Point.y heq
    omega
  · intro heq
    have h1 : p.y + 1 = p.y := congrArg Point.y heq
    omega
  · intro heq
    have h1 : p.y + 1 = p.y := congrArg Point.y heq
    omega

/-- With a full capacity-1 queue, any remaining candidate that still
holds the foreground value overflows the fill. -/
theorem lrProcess_full (lval maxv : ℕ) :
    ∀ (cs : List Point) (img : PNM) (q : List Point),
      q.length = 1 → (∃ c ∈ cs, img.image c.y c.x = maxv) →
      ∃ e, lrProcess 1 lval maxv cs img q = Except.error e := by
  intro cs
  induction cs with
  | nil =>
    intro img q _ h
    obtain ⟨c, hc, _⟩ := h
    cases hc
  | cons c cs ih =>
    intro img q hq h
    by_cases hm : img.image c.y c.x = maxv
    · refine ⟨img, ?_⟩
      have henq : lrEnq 1 lval img q c = none := by
        unfold lrEnq
        rw [if_pos hq]
      rw [lrProcess, if_pos hm, henq]
    · obtain ⟨c2, hc2, hv2⟩ := h
      have hc2' : c2 ∈ cs := by
        rcases List.mem_cons.mp hc2 with rfl | h2
        · exact absurd hv2 hm
        · exact h2
      rw [lrProcess, if_neg hm]
      exact ih img q hq ⟨c2, hc2', hv2⟩

/-- Starting from an emptied capacity-1 queue, two distinct foreground
candidates always overflow: the first enqueue fills the queue, the
second fails. -/
theorem lrProcess_two (lval maxv : ℕ) :
    ∀ (cs : List Point) (img : PNM) (c1 c2 : Point),
      c1 ∈ cs → c2 ∈ cs → c1 ≠ c2 →
      img.image c1.y c1.x = maxv → img.image c2.y c2.x = maxv →
      ∃ e, lrProcess 1 lval maxv cs img [] = Except.error e := by
  intro cs
  induction cs with
  | nil =>
    intro img c1 c2 h1 _ _ _ _
    cases h1
  | cons c cs ih =>
    intro img c1 c2 h1 h2 hne hv1 hv2
    by_cases hm : img.image c.y c.x = maxv
    · have henq : lrEnq 1 lval img [] c = some (setPx img c.y c.x lval, [c]) := by
        unfold lrEnq
        rw [if_neg (by simp)]
        rfl
      rw [lrProcess, if_pos hm, henq]
      have hwit : ∃ c3 ∈ cs, (setPx img c.y c.x lval).image c3.y c3.x = maxv := by
        by_cases hc1c : c1 = c
        · have h2' : c2 ∈ cs := by
            rcases List.mem_cons.mp h2 with heq | h2'
            · exact absurd (hc1c.trans heq.symm) hne
            · exact h2'
          refine ⟨c2, h2', ?_⟩
          show (if c2.y = c.y ∧ c2.x = c.x then lval else img.image c2.y c2.x) = maxv
          rw [if_neg fun hp => hne (hc1c.trans (Point.ext hp.1 hp.2).symm), hv2]
        · have h1' : c1 ∈ cs := by
            rcases List.mem_cons.mp h1 with heq | h1'
            · exact absurd heq hc1c
            · exact h1'
          refine ⟨c1, h1', ?_⟩
          show (if c1.y = c.y ∧ c1.x = c.x then lval else img.image c1.y c1.x) = maxv
          rw [if_neg fun hp => hc1c (Point.ext hp.1 hp.2), hv1]
      exact lrProcess_full lval maxv cs _ [c] (by simp) hwit
    · have h1' : c1 ∈ cs := by
        rcases List.mem_cons.mp h1 with rfl | h
        · exact absurd hv1 hm
        · exact h
      have h2' : c2 ∈ cs := by
        rcases List.mem_cons.mp h2 with rfl | h
        · exact absurd hv2 hm
        · exact h
      rw [lrProcess, if_neg hm]
      exact ih img c1 c2 h1' h2' hne hv1 hv2

/-- C5 (amended): with the flood-fill queue capacity set to 1,
`label_region` reports resource-exhausted for every seed that has (at
the moment it is dequeued) two distinct foreground neighbours — the
first enqueue fills the queue and the second necessarily overflows.
(A component of 2 pixels, by contrast, is labeled successfully — see
the counterexample — because each dequeue frees the single slot before
the next enqueue.) -/
theorem C5_capacity_one_overflow (img : PNM) (y x lval : ℕ) (c1 c2 : Point)
    (h1 : c1 ∈ nbrCandidates img.height img.width ⟨y, x⟩)
    (h2 : c2 ∈ nbrCandidates img.height img.width ⟨y, x⟩)
    (hne : c1 ≠ c2)
    (hv1 : img.image c1.y c1.x = img.max) (hv2 : img.image c2.y c2.x = img.max) :
    (label_region 1 img y x lval).map Prod.fst = some false := by
  unfold label_region
  have henq : lrEnq 1 lval img [] ⟨y, x⟩ = some (setPx img y x lval, [⟨y, x⟩]) := by
    unfold lrEnq
    rw [if_neg (by simp)]
    rfl
  rw [henq]
  show (lrLoop 1 lval img.max img.height img.width (lrFuel img)
    (setPx img y x lval) [⟨y, x⟩]).map Prod.fst = some false
  have hc1p : c1 ≠ ⟨y, x⟩ := nbrCandidates_ne img.height img.width ⟨y, x⟩ c1 h1
  have hc2p : c2 ≠ ⟨y, x⟩ := nbrCandidates_ne img.height img.width ⟨y, x⟩ c2 h2
  have hv1' : (setPx img y x lval).image c1.y c1.x = img.max := by
    show (if c1.y = y ∧ c1.x = x then lval else img.image c1.y c1.x) = img.max
    rw [if_neg fun hp => hc1p (Point.ext hp.1 hp.2), hv1]
  have hv2' : (setPx img y x lval).image c2.y c2.x = img.max := by
    show (if c2.y = y ∧ c2.x = x then lval else img.image c2.y c2.x) = img.max
    rw [if_neg fun hp => hc2p (Point.ext hp.1 hp.2), hv2]
  obtain ⟨e, he⟩ := lrProcess_two lval img.max (nbrCandidates img.height img.width ⟨y, x⟩)
    (setPx img y x lval) c1 c2 h1 h2 hne hv1' hv2'
  rw [show lrFuel img = (img.height + 2) * (img.width + 2) + 1 + 1 from rfl, lrLoop]
  show ((match lrProcess 1 lval img.max (nbrCandidates img.height img.width ⟨y, x⟩)
      (setPx img y x lval) [] with
    | Except.error img2 => some ((false : Bool), img2)
    | Except.ok (img2, q2) =>
      lrLoop 1 lval img.max img.height img.width ((img.height + 2) * (img.width + 2) + 1)
        img2 q2)).map Prod.fst = some false
  rw [he]
  rfl

/-- C5 witness: on the all-foreground 1×3 row, the middle seed (0,1)
has the two distinct foreground neighbours (0,0) and (0,2), so the
capacity-1 fill overflows. -/
theorem C5_capacity_one_overflow_witness :
    c5WImg.image 0 0 = c5WImg.max ∧ c5WImg.image 0 2 = c5WImg.max ∧
    (label_region 1 c5WImg 0 1 1).map Prod.fst = some false :=
  ⟨by decide, by decide,
   C5_capacity_one_overflow c5WImg 0 1 1 ⟨0, 0⟩ ⟨0, 2⟩ (by decide) (by decide) (by decide)
     (by decide) (by decide)⟩

/-- C5 counterexample: the 1×2 all-foreground row is a connected
component of 2 (> 1) pixels, yet `label_region` with queue capacity 1
labels it completely and returns success, because the seed is dequeued
(freeing the only slot) before its single fresh neighbour is enqueued.
So "any component with more than 1 pixel deterministically reports
resource-exhausted" fails as stated. -/
theorem C5_capacity_one_counterexample :
    c5CexImg.image 0 0 = c5CexImg.max ∧ c5CexImg.image 0 1 = c5CexImg.max ∧
    (label_region 1 c5CexImg 0 0 1).map Prod.fst = some true := by
  refine ⟨by decide, by decide, ?_⟩
  decide

/-! ## C9: labels never collide with max on success -/

/-- `evolves` is reflexive. -/
theorem evolves_refl (maxv lval : ℕ) (a : PNM) : evolves maxv lval a a :=
  ⟨rfl, rfl, rfl, fun _ _ => Or.inl rfl⟩

/-- `evolves` composes (writes never restore `maxv` when
`lval ≠ maxv`). -/
theorem evolves_trans (maxv lval : ℕ) (hlm : lval ≠ maxv) (a b c : PNM)
    (h1 : evolves maxv lval a b) (h2 : evolves maxv lval b c) : evolves maxv lval a c := by
  obtain ⟨hw1, hh1, hm1, hp1⟩ := h1
  obtain ⟨hw2, hh2, hm2, hp2⟩ := h2
  refine ⟨hw2.trans hw1, hh2.trans hh1, hm2.trans hm1, ?_⟩
  intro p q
  rcases hp2 p q with h | ⟨hb, hc⟩
  · rw [h]
    exact hp1 p q
  · rcases hp1 p q with h | ⟨ha, hb'⟩
    · rw [h] at hb
      exact Or.inr ⟨hb, hc⟩
    · exact absurd (hb'.symm.trans hb) hlm

/-- Marking one foreground pixel with the label is an evolution step. -/
theorem evolves_setPx (maxv lval : ℕ) (a : PNM) (y x : ℕ) (h : a.image y x = maxv) :
    evolves maxv lval a (setPx a y x lval) := by
  refine ⟨rfl, rfl, rfl, ?_⟩
  intro p q
  by_cases hpq : p = y ∧ q = x
  · right
    constructor
    · rw [hpq.1, hpq.2]
      exact h
    · show (if p = y ∧ q = x then lval else a.image p q) = lval
      rw [if_pos hpq]
  · left
    show (if p = y ∧ q = x then lval else a.image p q) = a.image p q
    rw [if_neg hpq]

/-- The neighbour pass only performs evolution steps (each enqueue
checks the pixel equals `maxv` and overwrites it with `lval`), in both
its outcomes. -/
theorem lrProcess_evolves (cap lval maxv : ℕ) (hlm : lval ≠ maxv) :
    ∀ (cs : List Point) (img : PNM) (q : List Point),
      (∀ img2 q2, lrProcess cap lval maxv cs img q = Except.ok (img2, q2) →
        evolves maxv lval img img2) ∧
      (∀ img2, lrProcess cap lval maxv cs img q = Except.error img2 →
        evolves maxv lval img img2) := by
  intro cs
  induction cs with
  | nil =>
    intro img q
    constructor
    · intro img2 q2 h
      rw [lrProcess] at h
      have himg : img = img2 := congrArg Prod.fst (Except.ok.inj h)
      rw [← himg]
      exact evolves_refl maxv lval img
    · intro img2 h
      rw [lrProcess] at h
      exact Except.noConfusion h
  | cons c cs ih =>
    intro img q
    have hstep : ∀ img3 q3, lrEnq cap lval img q c = some (img3, q3) →
        img.image c.y c.x = maxv → evolves maxv lval img img3 := by
      intro img3 q3 henq hm
      unfold lrEnq at henq
      by_cases hcap : q.length = cap
      · rw [if_pos hcap] at henq
        exact Option.noConfusion henq
      · rw [if_neg hcap] at henq
        have himg3 : setPx img c.y c.x lval = img3 :=
          congrArg Prod.fst (Option.some.inj henq)
        rw [← himg3]
        exact evolves_setPx maxv lval img c.y c.x hm
    constructor
    · intro img2 q2 h
      rw [lrProcess] at h
      by_cases hm : img.image c.y c.x = maxv
      · rw [if_pos hm] at h
        cases henq : lrEnq cap lval img q c with
        | none =>
          rw [henq] at h
          exact Except.noConfusion h
        | some r =>
          obtain ⟨img3, q3⟩ := r
          rw [henq] at h
          have h2 : lrProcess cap lval maxv cs img3 q3 = Except.ok (img2, q2) := h
          exact evolves_trans maxv lval hlm img img3 img2 (hstep img3 q3 henq hm)
            ((ih img3 q3).1 img2 q2 h2)
      · rw [if_neg hm] at h
        exact (ih img q).1 img2 q2 h
    · intro img2 h
      rw [lrProcess] at h
      by_cases hm : img.image c.y c.x = maxv
      · rw [if_pos hm] at h
        cases henq : lrEnq cap lval img q c with
        | none =>
          rw [henq] at h
          have himg : img = img2 := Except.error.inj h
          rw [← himg]
          exact evolves_refl maxv lval img
        | some r =>
          obtain ⟨img3, q3⟩ := r
          rw [henq] at h
          have h2 : lrProcess cap lval maxv cs img3 q3 = Except.error img2 := h
          exact evolves_trans maxv lval hlm img img3 img2 (hstep img3 q3 henq hm)
            ((ih img3 q3).2 img2 h2)
      · rw [if_neg hm] at h
        exact (ih img q).2 img2 h

/-- The whole flood-fill loop only performs evolution steps. -/
theorem lrLoop_evolves (cap lval maxv hh ww : ℕ) (hlm : lval ≠ maxv) :
    ∀ (fuel : ℕ) (img : PNM) (q : List Point) (b : Bool) (img2 : PNM),
      lrLoop cap lval maxv hh ww fuel img q = some (b, img2) →
      evolves maxv lval img img2 := by
  intro fuel
  induction fuel with
  | zero =>
    intro img q b img2 hrun
    have hrun2 : (none : Option (Bool × PNM)) = some (b, img2) := hrun
    exact Option.noConfusion hrun2
  | succ fuel ih =>
    intro img q b img2 hrun
    cases q with
    | nil =>
      have hrun2 : some (true, img) = some (b, img2) := hrun
      have himg : img = img2 := congrArg Prod.snd (Option.some.inj hrun2)
      rw [← himg]
      exact evolves_refl maxv lval img
    | cons p rest =>
      have hrun2 : (match lrProcess cap lval maxv (nbrCandidates hh ww p) img rest with
          | Except.error img3 => some (false, img3)
          | Except.ok (img3, q3) => lrLoop cap lval maxv hh ww fuel img3 q3) =
          some (b, img2) := hrun
      cases hproc : lrProcess cap lval maxv (nbrCandidates hh ww p) img rest with
      | error e =>
        rw [hproc] at hrun2
        have himg : e = img2 := congrArg Prod.snd (Option.some.inj hrun2)
        rw [← himg]
        exact (lrProcess_evolves cap lval maxv hlm _ img rest).2 e hproc
      | ok r =>
        obtain ⟨img3, q3⟩ := r
        rw [hproc] at hrun2
        have h3 : lrLoop cap lval maxv hh ww fuel img3 q3 = some (b, img2) := hrun2
        exact evolves_trans maxv lval hlm img img3 img2
          ((lrProcess_evolves cap lval maxv hlm _ img rest).1 img3 q3 hproc)
          (ih img3 q3 b img2 h3)

/-- One component's labeling only performs evolution steps. -/
theorem label_region_evolves (cap : ℕ) (img : PNM) (y x lval : ℕ)
    (hlm : lval ≠ img.max) (hseed : img.image y x = img.max) (b : Bool) (img2 : PNM)
    (hrun : label_region cap img y x lval = some (b, img2)) :
    evolves img.max lval img img2 := by
  unfold label_region at hrun
  cases henq : lrEnq cap lval img [] ⟨y, x⟩ with
  | none =>
    rw [henq] at hrun
    have himg : img = img2 := congrArg Prod.snd (Option.some.inj hrun)
    rw [← himg]
    exact evolves_refl img.max lval img
  | some r =>
    obtain ⟨img3, q3⟩ := r
    rw [henq] at hrun
    have hstep : evolves img.max lval img img3 := by
      unfold lrEnq at henq
      by_cases hcap : ([] : List Point).length = cap
      · rw [if_pos hcap] at henq
        exact Option.noConfusion henq
      · rw [if_neg hcap] at henq
        have himg3 : setPx img y x lval = img3 :=
          congrArg Prod.fst (Option.some.inj henq)
        rw [← himg3]
        exact evolves_setPx img.max lval img y x hseed
    exact evolves_trans img.max lval hlm img img3 img2 hstep
      (lrLoop_evolves cap lval img.max img.height img.width hlm (lrFuel img) img3 q3 b img2 hrun)

/-- A pixel already holding the label keeps it through further
evolution. -/
theorem evolves_keep_lval (maxv lval : ℕ) (a b : PNM)
    (h : evolves maxv lval a b) (p q : ℕ) (hpq : a.image p q = lval) :
    b.image p q = lval := by
  rcases h.2.2.2 p q with h2 | ⟨_, h3⟩
  · rw [h2, hpq]
  · exact h3

/-- The seed of a successfully completed component carries the
component's label in the result. -/
theorem label_region_seed (cap : ℕ) (img : PNM) (y x lval : ℕ)
    (hlm : lval ≠ img.max) (img2 : PNM)
    (hrun : label_region cap img y x lval = some (true, img2)) :
    img2.image y x = lval := by
  unfold label_region at hrun
  cases henq : lrEnq cap lval img [] ⟨y, x⟩ with
  | none =>
    rw [henq] at hrun
    have hb : false = true := congrArg Prod.fst (Option.some.inj hrun)
    exact Bool.noConfusion hb
  | some r =>
    obtain ⟨img3, q3⟩ := r
    rw [henq] at hrun
    have hstep : img3.image y x = lval := by
      unfold lrEnq at henq
      by_cases hcap : ([] : List Point).length = cap
      · rw [if_pos hcap] at henq
        exact Option.noConfusion henq
      · rw [if_neg hcap] at henq
        have himg3 : setPx img y x lval = img3 :=
          congrArg Prod.fst (Option.some.inj henq)
        rw [← himg3]
        show (if y = y ∧ x = x then lval else img.image y x) = lval
        rw [if_pos ⟨rfl, rfl⟩]
    exact evolves_keep_lval img.max lval img3 img2
      (lrLoop_evolves cap lval img.max img.height img.width hlm (lrFuel img) img3 q3 true img2
        hrun)
      y x hstep

/-- Invariant carried by the `label_all` scan: starting from a grid
satisfying `labInv` at the current counter with `1 ≤ lval < max`, a
successful scan returns a grid of the same shape satisfying `labInv`
at `m + 1` (where `m` is the stored `label_max`), with `m < max`,
every scanned pixel no longer equal to the foreground sentinel, and
pixels that never were the sentinel left off it. -/
theorem laGo_success_inv (cap : ℕ) :
    ∀ (ps : List (ℕ × ℕ)) (img img2 : PNM) (lval m : ℕ),
      labInv img lval → 1 ≤ lval → lval < img.max →
      laGo cap ps img lval = some (true, img2, m) →
      img2.width = img.width ∧ img2.height = img.height ∧ img2.max = img.max ∧
        labInv img2 (m + 1) ∧ m < img.max ∧
        (∀ pr ∈ ps, img2.image pr.1 pr.2 ≠ img.max) ∧
        (∀ p q : ℕ, img.image p q ≠ img.max → img2.image p q ≠ img.max) := by
  intro ps
  induction ps with
  | nil =>
    intro img img2 lval m hInv h1 hlt hrun
    rw [laGo] at hrun
    have heq := Option.some.inj hrun
    have himg : img = img2 := congrArg (fun r => r.2.1) heq
    have hm : lval - 1 = m := congrArg (fun r => r.2.2) heq
    subst himg
    refine ⟨rfl, rfl, rfl, ?_, by omega, ?_, ?_⟩
    · have hm1 : m + 1 = lval := by omega
      rw [hm1]
      exact hInv
    · intro pr hpr
      exact absurd hpr (List.not_mem_nil pr)
    · intro p q h
      exact h
  | cons hd rest ih =>
    intro img img2 lval m hInv h1 hlt hrun
    obtain ⟨i, j⟩ := hd
    rw [laGo] at hrun
    by_cases hpix : img.image i j = img.max
    · rw [if_pos hpix] at hrun
      cases hlr : label_region cap img i j lval with
      | none =>
        rw [hlr] at hrun
        simp at hrun
      | some r =>
        obtain ⟨b3, img3⟩ := r
        rw [hlr] at hrun
        cases b3 with
        | false =>
          have hrun2 : some ((false, img3, lval + 1 - 2) : Bool × PNM × ℕ)
              = some (true, img2, m) := hrun
          have hb : (false : Bool) = true :=
            congrArg (fun r => r.1) (Option.some.inj hrun2)
          exact Bool.noConfusion hb
        | true =>
          have hrun2 : (if lval + 1 = img.max
                then some ((false, img3, lval + 1 - 1) : Bool × PNM × ℕ)
                else laGo cap rest img3 (lval + 1)) = some (true, img2, m) := hrun
          by_cases hstep : lval + 1 = img.max
          · rw [if_pos hstep] at hrun2
            have hb : (false : Bool) = true :=
              congrArg (fun r => r.1) (Option.some.inj hrun2)
            exact Bool.noConfusion hb
          · rw [if_neg hstep] at hrun2
            have hlm : lval ≠ img.max := Nat.ne_of_lt hlt
            have hev : evolves img.max lval img img3 :=
              label_region_evolves cap img i j lval hlm hpix true img3 hlr
            have hw3 : img3.width = img.width := hev.1
            have hh3 : img3.height = img.height := hev.2.1
            have hm3 : img3.max = img.max := hev.2.2.1
            have hInv3 : labInv img3 (lval + 1) := by
              intro p q
              rcases hev.2.2.2 p q with he | ⟨_, he⟩
              · rw [he, hm3]
                rcases hInv p q with h | h | ⟨ha, hb⟩
                · exact Or.inl h
                · exact Or.inr (Or.inl h)
                · exact Or.inr (Or.inr ⟨ha, by omega⟩)
              · rw [he]
                exact Or.inr (Or.inr ⟨h1, by omega⟩)
            have hlt3 : lval + 1 < img3.max := by rw [hm3]; omega
            obtain ⟨hw2, hh2, hm2, hInv2, hmlt, hscan, hkeep⟩ :=
              ih img3 img2 (lval + 1) m hInv3 (by omega) hlt3 hrun2
            have hseed : img3.image i j = lval :=
              label_region_seed cap img i j lval hlm img3 hlr
            refine ⟨hw2.trans hw3, hh2.trans hh3, hm2.trans hm3, hInv2, by omega, ?_, ?_⟩
            · intro pr hpr
              rcases List.mem_cons.mp hpr with hpr | hpr
              · rw [hpr]
                have h3 : img3.image i j ≠ img3.max := by
                  rw [hseed, hm3]
                  exact hlm
                have hk := hkeep i j h3
                rw [hm3] at hk
                exact hk
              · have hk := hscan pr hpr
                rw [hm3] at hk
                exact hk
            · intro p q hne
              have h3 : img3.image p q ≠ img3.max := by
                rcases hev.2.2.2 p q with he | ⟨ha, _⟩
                · rw [he, hm3]
                  exact hne
                · exact absurd ha hne
              have hk := hkeep p q h3
              rw [hm3] at hk
              exact hk
    · rw [if_neg hpix] at hrun
      obtain ⟨hw2, hh2, hm2, hInv2, hmlt, hscan, hkeep⟩ :=
        ih img img2 lval m hInv h1 hlt hrun
      refine ⟨hw2, hh2, hm2, hInv2, hmlt, ?_, hkeep⟩
      intro pr hpr
      rcases List.mem_cons.mp hpr with hpr | hpr
      · rw [hpr]
        exact hkeep i j hpix
      · exact hscan pr hpr

/-- C9 (amended).  For a binarized grid (every stored pixel 0 or
`max_value`) with `max_value ≥ 2`, whenever `label_all` returns
success, every logical pixel of the result is background 0 or holds a
label in `[1, label_max]` that is strictly below `max_value` — so no
finished labeled pixel equals the unlabeled-foreground sentinel.  The
`max_value ≥ 2` bound is forced: with `max_value = 1` the first
component is labeled 1 = `max_value` and the scan still succeeds (see
the counterexample). -/
theorem C9_labels_below_max (img img2 : PNM) (m : ℕ)
    (hbin : ∀ p q : ℕ, img.image p q = 0 ∨ img.image p q = img.max)
    (hmax : 2 ≤ img.max)
    (hrun : label_all img = some (true, img2, m)) :
    ∀ i j : ℕ, i < img.height → j < img.width →
      img2.image i j = 0 ∨
        (1 ≤ img2.image i j ∧ img2.image i j ≤ m ∧ img2.image i j < img.max) := by
  intro i j hi hj
  have hInv : labInv img 1 := by
    intro p q
    rcases hbin p q with h | h
    · exact Or.inl h
    · exact Or.inr (Or.inl h)
  have hrun2 : laGo QUEUE_SIZE (scanList img.height img.width) img 1 = some (true, img2, m) :=
    hrun
  obtain ⟨_, _, hm2, hInv2, hmlt, hscan, _⟩ :=
    laGo_success_inv QUEUE_SIZE (scanList img.height img.width) img img2 1 m hInv le_rfl
      (by omega) hrun2
  have hmem : (i, j) ∈ scanList img.height img.width := by
    unfold scanList
    simp only [List.mem_flatMap, List.mem_range, List.mem_map]
    exact ⟨i, hi, j, hj, rfl⟩
  have hne : img2.image i j ≠ img.max := hscan (i, j) hmem
  rcases hInv2 i j with h | h | ⟨ha, hb⟩
  · exact Or.inl h
  · rw [hm2] at h
    exact absurd h hne
  · exact Or.inr ⟨ha, by omega, by omega⟩

/-- C9 witness: on the 2×2 binarized grid with `max = 3` and one
foreground pixel, `label_all` succeeds and the theorem places pixel
`(0, 0)` in `[1, label_max]` below `max`. -/
theorem C9_labels_below_max_witness :
    (label_all c9WImg).map (fun r => decide (r.2.1.image 0 0 = 0 ∨
        (1 ≤ r.2.1.image 0 0 ∧ r.2.1.image 0 0 ≤ r.2.2 ∧ r.2.1.image 0 0 < c9WImg.max))) =
      some true := by
  have hb : (label_all c9WImg).map (fun r => r.1) = some true := by decide
  rcases hrun : label_all c9WImg with _ | r
  · rw [hrun] at hb
    exact Option.noConfusion hb
  · obtain ⟨b, img2, m⟩ := r
    rw [hrun] at hb
    have hbtrue : b = true := Option.some.inj hb
    subst hbtrue
    have hbin : ∀ p q : ℕ, c9WImg.image p q = 0 ∨ c9WImg.image p q = c9WImg.max := by
      intro p q
      show (if p = 0 ∧ q = 0 then 3 else 0) = 0 ∨ (if p = 0 ∧ q = 0 then 3 else 0) = 3
      by_cases h : p = 0 ∧ q = 0
      · rw [if_pos h]
        exact Or.inr rfl
      · rw [if_neg h]
        exact Or.inl rfl
    have hres := C9_labels_below_max c9WImg img2 m hbin (by decide) hrun 0 0
      (by decide) (by decide)
    exact congrArg some (decide_eq_true hres)

/-- C9 counterexample: on the 2×2 binarized grid with `max_value = 1`
and one foreground pixel, `label_all` SUCCEEDS with `label_max = 1`
and leaves pixel `(0, 0)` holding label 1 = `max_value` — an assigned
label collides with the foreground sentinel, refuting the unqualified
claim. -/
theorem C9_label_collision_counterexample :
    (label_all c9CexImg).map (fun r => (r.1, r.2.2, decide (r.2.1.image 0 0 = c9CexImg.max))) =
        some (true, 1, true) ∧
      (∀ i ∈ Finset.range 2, ∀ j ∈ Finset.range 2,
        c9CexImg.image i j = 0 ∨ c9CexImg.image i j = c9CexImg.max) ∧
      c9CexImg.max = 1 := by
  refine ⟨by decide, ?_, by decide⟩
  decide

end Patcog
